import Mathlib

/-!
Formal model of the `unity-random` crate (a reimplementation of Unity's
seeded PRNG): `src/crypto.rs` and `src/random.rs`.

Modelling conventions:

* `u32` values are natural numbers; every operation that can leave
  `[0, 2^32)` is reduced modulo `2^32`, matching Rust's wrapping (release
  mode) semantics.  `i32` values are integers, with the wrapping casts made
  explicit (`toU32`, `toI32`).
* IEEE-754 binary floating point is modelled exactly over `ℚ` (and over `ℝ`
  for the distributions built from `sin`, `cos`, `sqrt`, `powf`): `fl p q`
  rounds `q` to a `p`-bit significand with round-to-nearest, ties-to-even,
  and an unbounded exponent (no overflow and no subnormals, which are
  irrelevant in the ranges exercised here).  `fl 24` models rounding to
  `f32` and `fl 53` rounding to `f64`; each arithmetic operation the Rust
  code performs on `f32`/`f64` is followed by the corresponding `fl`.
* `f32::log10().ceil()` is modelled as the exact ceiling logarithm
  `Int.clog 10`, and `10_f64.powi(shift)` as the exact rational power
  `10 ^ shift`; these agree with the code away from decade boundaries and
  for the `shift` magnitudes arising below.
* The distributions that evaluate `sin`, `cos`, `sqrt` or `powf` (libm
  calls, which IEEE-754 does not require to be correctly rounded) are
  modelled over `ℝ` with exact real arithmetic for those computations; the
  raw draws they consume are the faithful `f32` rationals produced by
  `next_f32`, and the final roundings are the faithful `precision_f32`.
-/

attribute [local semireducible] Rat.add Rat.mul Rat.sub Rat.inv Rat.ofScientific

set_option maxRecDepth 8000

namespace UnityRandom

/-- Fuel-driven floor logarithm, structurally recursive so that it reduces
inside the kernel; agrees with `Nat.log` once the fuel dominates `n`. -/
def natLogF (b : ℕ) : ℕ → ℕ → ℕ
  | 0, _ => 0
  | fuel + 1, n => if b ≤ n ∧ 1 < b then natLogF b fuel (n / b) + 1 else 0

/-- Fuel-driven ceiling logarithm, structurally recursive so that it reduces
inside the kernel; agrees with `Nat.clog` once the fuel dominates `n`. -/
def natClogF (b : ℕ) : ℕ → ℕ → ℕ
  | 0, _ => 0
  | fuel + 1, n => if 1 < b ∧ 1 < n then natClogF b fuel ((n + b - 1) / b) + 1 else 0

/-- Kernel-reducible version of `Nat.log`. -/
def natLog (b n : ℕ) : ℕ := natLogF b n n

/-- Kernel-reducible version of `Nat.clog`. -/
def natClog (b n : ℕ) : ℕ := natClogF b n n

section LogDefs

variable {K : Type} [LinearOrderedField K] [FloorRing K]

/-- Kernel-reducible version of `Int.log`. -/
def intLog (b : ℕ) (r : K) : ℤ :=
  if 1 ≤ r then natLog b ⌊r⌋₊ else -natClog b ⌈r⁻¹⌉₊

/-- Kernel-reducible version of `Int.clog`. -/
def intClog (b : ℕ) (r : K) : ℤ :=
  if 1 ≤ r then natClog b ⌈r⌉₊ else -natLog b ⌊r⁻¹⌋₊

end LogDefs

/-- The internal state of the random number generator (`State` in
`random.rs`): four `u32` words. -/
structure State where
  s0 : ℕ
  s1 : ℕ
  s2 : ℕ
  s3 : ℕ
deriving DecidableEq

namespace Crypto

/-- Crypto::init_state: expands a `u32` seed into four state words by
`w[i] = w[i-1].wrapping_mul(0x6C078965) + 1`. -/
def init_state (seed : ℕ) : State :=
  let s0 := seed % 2 ^ 32
  let s1 := (s0 * 0x6C078965 % 2 ^ 32 + 1) % 2 ^ 32
  let s2 := (s1 * 0x6C078965 % 2 ^ 32 + 1) % 2 ^ 32
  let s3 := (s2 * 0x6C078965 % 2 ^ 32 + 1) % 2 ^ 32
  ⟨s0, s1, s2, s3⟩

/-- Crypto::next_u32: one Marsaglia Xorshift128 step.  Returns the drawn
value together with the mutated state. -/
def next_u32 (st : State) : ℕ × State :=
  let t := st.s0 ^^^ ((st.s0 <<< 11) % 2 ^ 32)
  let s := st.s3 ^^^ (st.s3 >>> 19)
  let s3 := s ^^^ (t ^^^ (t >>> 8))
  (s3, ⟨st.s1, st.s2, st.s3, s3⟩)

section Rounding

variable {K : Type} [LinearOrderedField K] [FloorRing K]

/-- Round to the nearest integer, ties to even: the IEEE-754 default
rounding used by Rust's `f32`/`f64` arithmetic operators. -/
def rne (q : K) : ℤ :=
  if q - ⌊q⌋ < 1 / 2 then ⌊q⌋
  else if 1 / 2 < q - ⌊q⌋ then ⌊q⌋ + 1
  else if ⌊q⌋ % 2 = 0 then ⌊q⌋ else ⌊q⌋ + 1

/-- The value an IEEE-754 binary format with a `p`-bit significand stores
for `q`: round to `p` significant bits, nearest, ties to even, unbounded
exponent.  `fl 24` models `f32`, `fl 53` models `f64`. -/
def fl (p : ℕ) (q : K) : K :=
  if q = 0 then 0
  else
    let e : ℤ := intLog 2 |q| + 1 - p
    (if q < 0 then -1 else 1) * (rne (|q| / 2 ^ e) : K) * 2 ^ e

/-- f64::round: round half away from zero, as an integer. -/
def roundAway (q : K) : ℤ :=
  if 0 ≤ q then ⌊q + 1 / 2⌋ else -⌊-q + 1 / 2⌋

/-- Crypto::precision_f32: round `x` to `decimals` significant decimal
digits.  `shift = decimals - x.abs().log10().ceil()`, then
`(x as f64 * 10^shift).round() / 10^shift` is computed in `f64` and cast
back to `f32`. -/
def precision_f32 (x : K) (decimals : ℕ) : K :=
  if x = 0 ∨ decimals = 0 then 0
  else
    let shift : ℤ := (decimals : ℤ) - intClog 10 |x|
    let shift_factor : K := 10 ^ shift
    fl 24 (fl 53 ((roundAway (fl 53 (x * shift_factor)) : K) / shift_factor))

/-- f32::clamp. -/
def clamp (t lo hi : K) : K := if t < lo then lo else if hi < t then hi else t

/-- Crypto::lerp: `a + (b - a) * t.clamp(0., 1.)`, with `f32` rounding after
each arithmetic operation. -/
def lerp (a b t : K) : K := fl 24 (a + fl 24 (fl 24 (b - a) * clamp t 0 1))

/-- Crypto::hsv_to_rbg: HSV to RGBA.  `s == 0` gives grayscale, `v == 0`
gives black; otherwise the channel combination is picked by matching
`floor(h*6) + 1` against `0., 1., ..., 7.` with a `(0,0,0,1)` fallback, and
the result is clamped to `[0,1]` unless `hdr` is set. -/
def hsv_to_rbg (h s v : K) (hdr : Bool) : K × K × K × K :=
  if s = 0 then (v, v, v, 1)
  else if v = 0 then (0, 0, 0, 1)
  else
    let num := fl 24 (h * 6)
    let num2 : ℤ := ⌊num⌋
    let num3 := fl 24 (num - (num2 : K))
    let num4 := fl 24 (v * fl 24 (1 - s))
    let num5 := fl 24 (v * fl 24 (1 - fl 24 (s * num3)))
    let num6 := fl 24 (v * fl 24 (1 - fl 24 (s * fl 24 (1 - num3))))
    let color : K × K × K × K :=
      if num2 + 1 = 0 then (v, num4, num5, 1)
      else if num2 + 1 = 1 then (v, num6, num4, 1)
      else if num2 + 1 = 2 then (num5, v, num4, 1)
      else if num2 + 1 = 3 then (num4, v, num6, 1)
      else if num2 + 1 = 4 then (num4, num5, v, 1)
      else if num2 + 1 = 5 then (num6, num4, v, 1)
      else if num2 + 1 = 6 then (v, num4, num5, 1)
      else if num2 + 1 = 7 then (v, num6, num4, 1)
      else (0, 0, 0, 1)
    if hdr then color
    else (clamp color.1 0 1, clamp color.2.1 0 1, clamp color.2.2.1 0 1, color.2.2.2)

end Rounding

end Crypto

namespace Random

/-- Reinterpret an `i32` value as `u32` (Rust `as u32`). -/
def toU32 (z : ℤ) : ℕ := (z % 2 ^ 32).toNat

/-- Reinterpret a `u32` value as `i32` (Rust `as i32`). -/
def toI32 (n : ℕ) : ℤ :=
  if n % 2 ^ 32 < 2 ^ 31 then (n % 2 ^ 32 : ℤ) else (n % 2 ^ 32 : ℤ) - 2 ^ 32

/-- Random::init_state: seed the generator from an `i32` (cast `as u32`). -/
def init_state (seed : ℤ) : State := Crypto.init_state (toU32 seed)

/-- State effect of one raw `next_u32` draw. -/
def nextState (st : State) : State := (Crypto.next_u32 st).2

/-- Random::next_f32 (Crypto::next_f32): mask the draw to 23 bits, convert
to `f32` (exact) and divide by `0x7FFFFF` (the division rounds to `f32`). -/
def next_f32 (st : State) : ℚ × State :=
  let p := Crypto.next_u32 st
  (Crypto.fl 24 (((p.1 &&& 0x7FFFFF : ℕ) : ℚ) / 0x7FFFFF), p.2)

/-- Random::value: one normalized draw, rounded to 7 significant digits. -/
def value (st : State) : ℚ × State :=
  let p := next_f32 st
  (Crypto.precision_f32 p.1 7, p.2)

/-- Random::range_float_intern: `(1. - next) * max + next * min`, with `f32`
rounding after each arithmetic operation. -/
def range_float_intern (min max : ℚ) (st : State) : ℚ × State :=
  let p := next_f32 st
  (Crypto.fl 24 (Crypto.fl 24 (Crypto.fl 24 (1 - p.1) * max) + Crypto.fl 24 (p.1 * min)), p.2)

/-- Random::range_float: `range_float_intern` rounded to 7 significant
digits. -/
def range_float (min max : ℚ) (st : State) : ℚ × State :=
  let p := range_float_intern min max st
  (Crypto.precision_f32 p.1 7, p.2)

/-- Random::range_int: swap if `min > max`, then `min + next_u32 %
(max - min)` when the range is nonempty, with wrapping `i32` arithmetic. -/
def range_int (min max : ℤ) (st : State) : ℤ × State :=
  let mm := if max < min then (max, min) else (min, max)
  let diff : ℕ := toU32 (mm.2 - mm.1)
  if 0 < diff then
    let p := Crypto.next_u32 st
    (toI32 (toU32 (mm.1 + toI32 (p.1 % diff))), p.2)
  else (mm.1, st)

/-- Random::color_hsva: hue, saturation, value, alpha are each one lerped
draw (in that order, alpha after the HSV conversion); the HSV conversion
runs with `hdr = true`; all four channels are rounded to 7 significant
digits. -/
def color_hsva (hue_min hue_max saturation_min saturation_max value_min value_max
    alpha_min alpha_max : ℚ) (st : State) : (ℚ × ℚ × ℚ × ℚ) × State :=
  let p1 := next_f32 st
  let hue := Crypto.lerp hue_min hue_max p1.1
  let p2 := next_f32 p1.2
  let sat := Crypto.lerp saturation_min saturation_max p2.1
  let p3 := next_f32 p2.2
  let val := Crypto.lerp value_min value_max p3.1
  let c := Crypto.hsv_to_rbg hue sat val true
  let p4 := next_f32 p3.2
  let a := Crypto.lerp alpha_min alpha_max p4.1
  ((Crypto.precision_f32 c.1 7, Crypto.precision_f32 c.2.1 7,
    Crypto.precision_f32 c.2.2.1 7, Crypto.precision_f32 a 7), p4.2)

/-- Random::color: color_hsva with all ranges defaulted to `{0,1}` and alpha
to `{1,1}`. -/
def color (st : State) : (ℚ × ℚ × ℚ × ℚ) × State :=
  color_hsva 0 1 0 1 0 1 1 1 st

/-- Random::color_h. -/
def color_h (hue_min hue_max : ℚ) (st : State) : (ℚ × ℚ × ℚ × ℚ) × State :=
  color_hsva hue_min hue_max 0 1 0 1 1 1 st

/-- Random::color_hs. -/
def color_hs (hue_min hue_max saturation_min saturation_max : ℚ) (st : State) :
    (ℚ × ℚ × ℚ × ℚ) × State :=
  color_hsva hue_min hue_max saturation_min saturation_max 0 1 1 1 st

/-- Random::color_hsv. -/
def color_hsv (hue_min hue_max saturation_min saturation_max value_min value_max : ℚ)
    (st : State) : (ℚ × ℚ × ℚ × ℚ) × State :=
  color_hsva hue_min hue_max saturation_min saturation_max value_min value_max 1 1 st

/-- Real-valued model of Random::range_float_intern, used by the
distributions that feed the result into `sin` / `cos` / `sqrt` / `powf`;
the `f32` arithmetic surrounding those libm calls is idealized as exact
real arithmetic. -/
noncomputable def range_float_internR (min max : ℝ) (st : State) : ℝ × State :=
  let p := next_f32 st
  ((1 - (p.1 : ℝ)) * max + (p.1 : ℝ) * min, p.2)

/-- Random::inside_unit_circle: draw an angle in `[0, τ]` and a radius as
the square root of a draw in `[0, 1]`. -/
noncomputable def inside_unit_circle (st : State) : (ℝ × ℝ) × State :=
  let p1 := range_float_internR 0 (2 * Real.pi) st
  let p2 := range_float_internR 0 1 p1.2
  let radius := Real.sqrt p2.1
  ((Crypto.precision_f32 (radius * Real.cos p1.1) 7,
    Crypto.precision_f32 (radius * Real.sin p1.1) 7), p2.2)

/-- Random::on_unit_sphere_intern: a z-coordinate in `[-1, 1]` and an angle
in `[0, τ]`. -/
noncomputable def on_unit_sphere_intern (st : State) : (ℝ × ℝ × ℝ) × State :=
  let p1 := range_float_internR (-1) 1 st
  let p2 := range_float_internR 0 (2 * Real.pi) p1.2
  let radius_xy := Real.sqrt (1 - p1.1 ^ 2)
  ((Real.cos p2.1 * radius_xy, Real.sin p2.1 * radius_xy, p1.1), p2.2)

/-- Random::on_unit_sphere. -/
noncomputable def on_unit_sphere (st : State) : (ℝ × ℝ × ℝ) × State :=
  let p := on_unit_sphere_intern st
  ((Crypto.precision_f32 p.1.1 7, Crypto.precision_f32 p.1.2.1 7,
    Crypto.precision_f32 p.1.2.2 7), p.2)

/-- Random::inside_unit_sphere: scale an on_unit_sphere_intern point by the
cube root of one extra draw. -/
noncomputable def inside_unit_sphere (st : State) : (ℝ × ℝ × ℝ) × State :=
  let p := on_unit_sphere_intern st
  let q := next_f32 p.2
  let dist := (q.1 : ℝ) ^ ((1 : ℝ) / 3)
  ((Crypto.precision_f32 (p.1.1 * dist) 7, Crypto.precision_f32 (p.1.2.1 * dist) 7,
    Crypto.precision_f32 (p.1.2.2 * dist) 7), q.2)

/-- Random::rotation: four draws in `[-1, 1]`, normalized by the magnitude,
whose sign is flipped (the magnitude's, not the components') when `w < 0`. -/
noncomputable def rotation (st : State) : (ℝ × ℝ × ℝ × ℝ) × State :=
  let p1 := range_float_internR (-1) 1 st
  let p2 := range_float_internR (-1) 1 p1.2
  let p3 := range_float_internR (-1) 1 p2.2
  let p4 := range_float_internR (-1) 1 p3.2
  let mag0 := Real.sqrt (p1.1 ^ 2 + p2.1 ^ 2 + p3.1 ^ 2 + p4.1 ^ 2)
  let mag := if p4.1 < 0 then -mag0 else mag0
  ((Crypto.precision_f32 (p1.1 / mag) 7, Crypto.precision_f32 (p2.1 / mag) 7,
    Crypto.precision_f32 (p3.1 / mag) 7, Crypto.precision_f32 (p4.1 / mag) 7), p4.2)

/-- Random::rotation_uniform: the Hopf-fibration method; all four components
are negated when `w < 0`. -/
noncomputable def rotation_uniform (st : State) : (ℝ × ℝ × ℝ × ℝ) × State :=
  let p1 := range_float_internR 0 1 st
  let p2 := range_float_internR 0 (2 * Real.pi) p1.2
  let p3 := range_float_internR 0 (2 * Real.pi) p2.2
  let sqrt1 := Real.sqrt p1.1
  let inv := Real.sqrt (1 - p1.1)
  let x := inv * Real.sin p2.1
  let y := inv * Real.cos p2.1
  let z := sqrt1 * Real.sin p3.1
  let w := sqrt1 * Real.cos p3.1
  let q := if w < 0 then (-x, -y, -z, -w) else (x, y, z, w)
  ((Crypto.precision_f32 q.1 7, Crypto.precision_f32 q.2.1 7,
    Crypto.precision_f32 q.2.2.1 7, Crypto.precision_f32 q.2.2.2 7), p3.2)

/-- First `n` outputs of a stateful drawing function. -/
def drawList {α : Type} (f : State → α × State) : ℕ → State → List α
  | 0, _ => []
  | Nat.succ n, st => (f st).1 :: drawList f n (f st).2

end Random

/-- Selection function for the HSV conversion, following the spec's words:
the candidate channel combination is picked by comparing the selector `k`
directly against `0, 1, ..., 7`, with a `(0,0,0,1)` fallback for any other
selector; the candidates are the standard HSV sector formulas derived from
`h`, `s`, `v` exactly as in `Crypto::hsv_to_rbg`. -/
def hsvSectorSelect (k : ℤ) (h s v : ℚ) : ℚ × ℚ × ℚ × ℚ :=
  let num := Crypto.fl 24 (h * 6)
  let num2 : ℤ := ⌊num⌋
  let num3 := Crypto.fl 24 (num - (num2 : ℚ))
  let num4 := Crypto.fl 24 (v * Crypto.fl 24 (1 - s))
  let num5 := Crypto.fl 24 (v * Crypto.fl 24 (1 - Crypto.fl 24 (s * num3)))
  let num6 := Crypto.fl 24 (v * Crypto.fl 24 (1 - Crypto.fl 24 (s * Crypto.fl 24 (1 - num3))))
  if k = 0 then (v, num4, num5, 1)
  else if k = 1 then (v, num6, num4, 1)
  else if k = 2 then (num5, v, num4, 1)
  else if k = 3 then (num4, v, num6, 1)
  else if k = 4 then (num4, num5, v, 1)
  else if k = 5 then (num6, num4, v, 1)
  else if k = 6 then (v, num4, num5, 1)
  else if k = 7 then (v, num6, num4, 1)
  else (0, 0, 0, 1)

end UnityRandom

namespace UnityRandom

open Random

theorem natLogF_eq (b : ℕ) : ∀ fuel n, n ≤ fuel → natLogF b fuel n = Nat.log b n := by
  intro fuel
  induction fuel with
  | zero => intro n hn; interval_cases n; simp [natLogF]
  | succ fuel ih =>
    intro n hn
    by_cases h : b ≤ n ∧ 1 < b
    · rw [natLogF, if_pos h, Nat.log_of_one_lt_of_le h.2 h.1, ih]
      have hb : 2 ≤ b := h.2
      have h2 : 2 ≤ n := le_trans hb h.1
      calc n / b ≤ n / 2 := Nat.div_le_div_left hb (by omega)
        _ ≤ fuel := by omega
    · rw [natLogF, if_neg h]
      rcases not_and_or.mp h with h' | h'
      · exact (Nat.log_of_lt (not_le.mp h')).symm
      · exact (Nat.log_of_left_le_one (not_lt.mp h') n).symm

theorem natLog_eq (b n : ℕ) : natLog b n = Nat.log b n := natLogF_eq b n n le_rfl

theorem natClogF_eq (b : ℕ) : ∀ fuel n, n ≤ fuel → natClogF b fuel n = Nat.clog b n := by
  intro fuel
  induction fuel with
  | zero => intro n hn; interval_cases n; simp [natClogF]
  | succ fuel ih =>
    intro n hn
    by_cases h : 1 < b ∧ 1 < n
    · have hb : 2 ≤ b := h.1
      have h2 : 2 ≤ n := h.2
      have key : n + b ≤ b * n := by
        rcases le_total n b with hnb | hnb
        · have : 2 * b ≤ b * n := by rw [Nat.mul_comm b n]; exact Nat.mul_le_mul_right b h2
          omega
        · have : 2 * n ≤ b * n := Nat.mul_le_mul_right n hb
          omega
      have hlt : (n + b - 1) / b < n := Nat.div_lt_of_lt_mul (by omega)
      rw [natClogF, if_pos h, Nat.clog_of_two_le h.1 h.2, ih _ (by omega)]
    · rw [natClogF, if_neg h]
      rcases not_and_or.mp h with h' | h'
      · exact (Nat.clog_of_left_le_one (not_lt.mp h') n).symm
      · exact (Nat.clog_of_right_le_one (not_lt.mp h') b).symm

theorem natClog_eq (b n : ℕ) : natClog b n = Nat.clog b n := natClogF_eq b n n le_rfl

section LogLemmas

variable {K : Type} [LinearOrderedField K] [FloorRing K]

theorem intLog_eq (b : ℕ) (r : K) : intLog b r = Int.log b r := by
  unfold intLog
  split
  · rw [Int.log_of_one_le_right b (by assumption), natLog_eq]
  · rw [Int.log_of_right_le_one b (le_of_not_le (by assumption)), natClog_eq]

theorem intClog_eq (b : ℕ) (r : K) : intClog b r = Int.clog b r := by
  unfold intClog
  split
  · rw [Int.clog_of_one_le_right b (by assumption), natClog_eq]
  · rw [Int.clog_of_right_le_one b (le_of_not_le (by assumption)), natLog_eq]

end LogLemmas

/-- C1: for every generator state, `next_u32` advances the state by exactly
the Xorshift128 step: with `t = s0 XOR (s0 << 11)` and `s = s3 XOR (s3 >> 19)`
computed on unsigned 32-bit words, the new state is
`(s1, s2, s3, s XOR (t XOR (t >> 8)))` and the returned value equals the
new `s3`. -/
theorem next_u32_xorshift128_step (st : State) :
    (Crypto.next_u32 st).2 =
      ⟨st.s1, st.s2, st.s3,
        (st.s3 ^^^ st.s3 / 2 ^ 19) ^^^
          ((st.s0 ^^^ st.s0 * 2 ^ 11 % 2 ^ 32) ^^^
            (st.s0 ^^^ st.s0 * 2 ^ 11 % 2 ^ 32) / 2 ^ 8)⟩ ∧
    (Crypto.next_u32 st).1 = (Crypto.next_u32 st).2.s3 := by
  constructor
  · simp [Crypto.next_u32, Nat.shiftLeft_eq, Nat.shiftRight_eq_div_pow]
  · rfl

/-- C2: for each fixture seed, the first five outputs of `value`, of
`range_float 0 1` and of `range_int 0 i32::MAX` equal the reference
five-tuples recorded in the repository's tests.  A float fixture literal
denotes the `f32` value nearest to it, i.e. `Crypto.fl 24` of the decimal. -/
theorem known_vector_regression :
    (drawList value 5 (init_state 0) =
        List.map (Crypto.fl 24) [0.5841396, 0.5840824, 0.6736069, 0.766507, 0.3050319] ∧
      drawList value 5 (init_state 1) =
        List.map (Crypto.fl 24) [0.9996847, 0.7742628, 0.6809838, 0.4604562, 0.5944274] ∧
      drawList value 5 (init_state 358118) =
        List.map (Crypto.fl 24) [0.6642595, 0.1477097, 0.9248888, 0.5928424, 0.9549153] ∧
      drawList value 5 (init_state 30029247) =
        List.map (Crypto.fl 24) [0.4087697, 0.510399, 0.8909144, 0.3268396, 0.1220958] ∧
      drawList value 5 (init_state 719188662) =
        List.map (Crypto.fl 24) [0.2724452, 0.1936961, 0.95676, 0.05701066, 0.1853699]) ∧
    (drawList (range_float 0 1) 5 (init_state 0) =
        List.map (Crypto.fl 24) [0.4158604, 0.4159176, 0.3263931, 0.233493, 0.6949681] ∧
      drawList (range_float 0 1) 5 (init_state 1) =
        List.map (Crypto.fl 24) [0.0003153086, 0.2257372, 0.3190162, 0.5395438, 0.4055726] ∧
      drawList (range_float 0 1) 5 (init_state 358118) =
        List.map (Crypto.fl 24) [0.3357405, 0.8522903, 0.07511115, 0.4071576, 0.04508471] ∧
      drawList (range_float 0 1) 5 (init_state 30029247) =
        List.map (Crypto.fl 24) [0.5912303, 0.489601, 0.1090856, 0.6731604, 0.8779042] ∧
      drawList (range_float 0 1) 5 (init_state 719188662) =
        List.map (Crypto.fl 24) [0.7275548, 0.806304, 0.04323995, 0.9429893, 0.8146302]) ∧
    (drawList (range_int 0 2147483647) 5 (init_state 0) =
        [1900725526, 1900725046, 559298752, 107093222, 556206921] ∧
      drawList (range_int 0 2147483647) 5 (init_state 1) =
        [1543501227, 199432971, 752298619, 138080315, 743183923] ∧
      drawList (range_int 0 2147483647) 5 (init_state 358118) =
        [2136278644, 1595074600, 1928749762, 1103880771, 377109161] ∧
      drawList (range_int 0 2147483647) 5 (init_state 30029247) =
        [607408785, 1212241089, 1349650812, 1000986081, 1024434390] ∧
      drawList (range_int 0 2147483647) 5 (init_state 719188662) =
        [1596120957, 890817289, 1727690525, 42421281, 1268234803]) :=
  ⟨⟨by decide, by decide, by decide, by decide, by decide⟩,
    ⟨by decide, by decide, by decide, by decide, by decide⟩,
    ⟨by decide, by decide, by decide, by decide, by decide⟩⟩

/-- C4 (amended): `range_int` treats swapped bounds identically (same value
and same final state); `range_float` does not swap, but both argument
orders consume exactly one draw and leave the same final state. -/
theorem range_swap_behavior (st : State) (lo hi : ℤ) (a b : ℚ) :
    range_int lo hi st = range_int hi lo st ∧
    (range_float a b st).2 = (range_float b a st).2 := by
  refine ⟨?_, rfl⟩
  rcases lt_trichotomy lo hi with h | h | h
  · simp [range_int, h, not_lt.mpr h.le]
  · simp [range_int, h]
  · simp [range_int, h, not_lt.mpr h.le]

/-- C4 counterexample: with `min > max`, `range_float` does not return the
same value as the swapped call (the claimed swap does not happen): from the
seed-0 state, `range_float(1, 0)` and `range_float(0, 1)` differ. -/
theorem range_float_no_swap_counterexample :
    (range_float 1 0 (init_state 0)).1 ≠ (range_float 0 1 (init_state 0)).1 := by
  decide

/-- C7 (amended): `color`, `color_h`, `color_hs` and `color_hsv` are exactly
`color_hsva` with the unexposed hue/saturation/value ranges defaulted to
`{0,1}` and the alpha range defaulted to `{1,1}` (not `{0,1}`): same RGBA
value and same final state. -/
theorem color_wrappers_are_hsva_defaults (st : State)
    (h1 h2 s1 s2 v1 v2 : ℚ) :
    color st = color_hsva 0 1 0 1 0 1 1 1 st ∧
    color_h h1 h2 st = color_hsva h1 h2 0 1 0 1 1 1 st ∧
    color_hs h1 h2 s1 s2 st = color_hsva h1 h2 s1 s2 0 1 1 1 st ∧
    color_hsv h1 h2 s1 s2 v1 v2 st = color_hsva h1 h2 s1 s2 v1 v2 1 1 st :=
  ⟨rfl, rfl, rfl, rfl⟩

/-- C7 counterexample: the wrappers do not default the unexposed alpha
channel to the range `{0,1}`: from seed 0, `color_hsva` called with alpha
range 0..1 returns a random alpha (the fourth draw), while `color` always
returns alpha 1. -/
theorem color_alpha_default_counterexample :
    color (init_state 0) ≠ color_hsva 0 1 0 1 0 1 0 1 (init_state 0) := by
  decide

theorem fl_zero {K : Type} [LinearOrderedField K] [FloorRing K] (p : ℕ) :
    Crypto.fl p (0 : K) = 0 := by
  simp [Crypto.fl]

theorem fl24_one_rat : Crypto.fl 24 (1 : ℚ) = 1 := by decide

theorem lerp_one_one_rat (t : ℚ) : Crypto.lerp 1 1 t = 1 := by
  simp [Crypto.lerp, fl_zero, fl24_one_rat]

theorem precision7_one_rat : Crypto.precision_f32 (1 : ℚ) 7 = 1 := by decide

/-- C10: the alpha channel of `color`, `color_h`, `color_hs`, `color_hsv` is
exactly 1 for every state and argument tuple (they pass
`alpha_min = alpha_max = 1` and `lerp 1 1 t = 1`); the alpha draw is still
consumed, so all four advance the stream by 4 draws. -/
theorem color_wrappers_alpha_one (st : State) (h1 h2 s1 s2 v1 v2 : ℚ) :
    (color st).1.2.2.2 = 1 ∧
    (color_h h1 h2 st).1.2.2.2 = 1 ∧
    (color_hs h1 h2 s1 s2 st).1.2.2.2 = 1 ∧
    (color_hsv h1 h2 s1 s2 v1 v2 st).1.2.2.2 = 1 ∧
    (color st).2 = nextState (nextState (nextState (nextState st))) ∧
    (color_h h1 h2 st).2 = nextState (nextState (nextState (nextState st))) ∧
    (color_hs h1 h2 s1 s2 st).2 = nextState (nextState (nextState (nextState st))) ∧
    (color_hsv h1 h2 s1 s2 v1 v2 st).2 = nextState (nextState (nextState (nextState st))) := by
  refine ⟨?_, ?_, ?_, ?_, rfl, rfl, rfl, rfl⟩ <;>
    simp [color, color_h, color_hs, color_hsv, color_hsva, lerp_one_one_rat,
      precision7_one_rat]

/-- C8 (amended): in the HSV conversion, when `s = 0` the result is
`(v, v, v, 1)`; otherwise when `v = 0` it is `(0, 0, 0, 1)`; otherwise the
channel combination is selected by matching the selector
`floor(h*6) + 1` directly (not modulo 8) against `0, ..., 7`, with the
fallback `(0,0,0,1)` for every selector outside that ring; selectors 0 and
6, and 1 and 7, produce duplicate formulas. -/
theorem hsv_sector_selection (h s v : ℚ) :
    Crypto.hsv_to_rbg h 0 v true = (v, v, v, 1) ∧
    (s ≠ 0 → Crypto.hsv_to_rbg h s 0 true = (0, 0, 0, 1)) ∧
    (s ≠ 0 → v ≠ 0 →
      Crypto.hsv_to_rbg h s v true = hsvSectorSelect (⌊Crypto.fl 24 (h * 6)⌋ + 1) h s v) ∧
    (∀ k : ℤ, k < 0 ∨ 7 < k → hsvSectorSelect k h s v = (0, 0, 0, 1)) ∧
    hsvSectorSelect 0 h s v = hsvSectorSelect 6 h s v ∧
    hsvSectorSelect 1 h s v = hsvSectorSelect 7 h s v := by
  refine ⟨by simp [Crypto.hsv_to_rbg], ?_, ?_, ?_, rfl, rfl⟩
  · intro hs
    simp [Crypto.hsv_to_rbg, hs]
  · intro hs hv
    simp only [Crypto.hsv_to_rbg, hsvSectorSelect, if_neg hs, if_neg hv, if_true]
  · intro k hk
    have e0 : ¬(k = 0) := by omega
    have e1 : ¬(k = 1) := by omega
    have e2 : ¬(k = 2) := by omega
    have e3 : ¬(k = 3) := by omega
    have e4 : ¬(k = 4) := by omega
    have e5 : ¬(k = 5) := by omega
    have e6 : ¬(k = 6) := by omega
    have e7 : ¬(k = 7) := by omega
    simp only [hsvSectorSelect, if_neg e0, if_neg e1, if_neg e2, if_neg e3, if_neg e4,
      if_neg e5, if_neg e6, if_neg e7]

/-- Witness for hsv_sector_selection at concrete inputs. -/
theorem hsv_sector_selection_witness :
    Crypto.hsv_to_rbg (1/2 : ℚ) 1 1 true =
      hsvSectorSelect (⌊Crypto.fl 24 ((1/2 : ℚ) * 6)⌋ + 1) (1/2) 1 1 ∧
    Crypto.hsv_to_rbg (1/2 : ℚ) 1 0 true = (0, 0, 0, 1) ∧
    hsvSectorSelect 9 (1/2) 1 1 = (0, 0, 0, 1) :=
  ⟨(hsv_sector_selection (1/2) 1 1).2.2.1 (by norm_num) (by norm_num),
    (hsv_sector_selection (1/2) 1 0).2.1 (by norm_num),
    (hsv_sector_selection (1/2) 1 1).2.2.2.1 9 (by norm_num)⟩

/-- C8 counterexample: the selection is not `(sector + 1) mod 8`: at
`h = 5/4` (sector 7, selector 8) the code falls back to `(0,0,0,1)`, while
a mod-8 selection would pick branch 0. -/
theorem hsv_mod8_selection_counterexample :
    Crypto.hsv_to_rbg (5/4 : ℚ) 1 1 true ≠
      hsvSectorSelect ((⌊Crypto.fl 24 ((5/4 : ℚ) * 6)⌋ + 1) % 8) (5/4) 1 1 := by
  decide

/-- C6: draw-count accounting: `value` and `range_float` consume 1 draw;
`range_int` consumes 1 draw when `min ≠ max` and 0 draws when `min = max`;
`inside_unit_circle` and `on_unit_sphere` consume 2; `inside_unit_sphere`
and `rotation_uniform` consume 3; `rotation`, `color_hsva` and the color
wrappers consume 4. -/
theorem draw_count_accounting (st : State) (a b : ℚ) (lo hi : ℤ)
    (h1 h2 s1 s2 v1 v2 a1 a2 : ℚ)
    (hlo1 : -2^31 ≤ lo) (hlo2 : lo < 2^31) (hhi1 : -2^31 ≤ hi) (hhi2 : hi < 2^31) :
    (value st).2 = nextState st ∧
    (range_float a b st).2 = nextState st ∧
    (range_int lo hi st).2 = (if lo = hi then st else nextState st) ∧
    (inside_unit_circle st).2 = nextState (nextState st) ∧
    (on_unit_sphere st).2 = nextState (nextState st) ∧
    (inside_unit_sphere st).2 = nextState (nextState (nextState st)) ∧
    (rotation_uniform st).2 = nextState (nextState (nextState st)) ∧
    (rotation st).2 = nextState (nextState (nextState (nextState st))) ∧
    (color_hsva h1 h2 s1 s2 v1 v2 a1 a2 st).2 =
      nextState (nextState (nextState (nextState st))) ∧
    (color st).2 = nextState (nextState (nextState (nextState st))) ∧
    (color_h h1 h2 st).2 = nextState (nextState (nextState (nextState st))) ∧
    (color_hs h1 h2 s1 s2 st).2 = nextState (nextState (nextState (nextState st))) ∧
    (color_hsv h1 h2 s1 s2 v1 v2 st).2 = nextState (nextState (nextState (nextState st))) := by
  refine ⟨rfl, rfl, ?_, rfl, rfl, rfl, rfl, rfl, rfl, rfl, rfl, rfl, rfl⟩
  by_cases hlh : lo = hi
  · subst hlh
    simp [range_int, toU32]
  · rw [if_neg hlh]
    rcases lt_or_gt_of_ne hlh with hlt | hlt
    · have hmm : (if hi < lo then (hi, lo) else (lo, hi)) = (lo, hi) :=
        if_neg (not_lt.mpr hlt.le)
      have hd : toU32 (hi - lo) = (hi - lo).toNat := by
        unfold toU32
        rw [Int.emod_eq_of_lt (by omega) (by omega)]
      have hpos : 0 < toU32 (hi - lo) := by rw [hd]; omega
      simp only [range_int, hmm, hpos, if_pos]
      rfl
    · have hmm : (if hi < lo then (hi, lo) else (lo, hi)) = (hi, lo) := if_pos hlt
      have hd : toU32 (lo - hi) = (lo - hi).toNat := by
        unfold toU32
        rw [Int.emod_eq_of_lt (by omega) (by omega)]
      have hpos : 0 < toU32 (lo - hi) := by rw [hd]; omega
      simp only [range_int, hmm, hpos, if_pos]
      rfl

section ErrorBounds

variable {K : Type} [LinearOrderedField K] [FloorRing K]

theorem rne_abs_sub_le (q : K) : |(Crypto.rne q : K) - q| ≤ 1 / 2 := by
  have h0 : (⌊q⌋ : K) ≤ q := Int.floor_le q
  have h1 : q < ⌊q⌋ + 1 := Int.lt_floor_add_one q
  unfold Crypto.rne
  split
  · rename_i h
    rw [abs_le]
    constructor <;> push_cast <;> linarith
  · split
    · rename_i h h'
      rw [abs_le]
      constructor <;> push_cast <;> linarith
    · rename_i h h'
      have hq : q - ⌊q⌋ = 1 / 2 := le_antisymm (not_lt.mp h') (not_lt.mp h)
      split <;> (rw [abs_le]; constructor <;> push_cast <;> linarith)

theorem rne_eq_floor_or (q : K) : Crypto.rne q = ⌊q⌋ ∨ Crypto.rne q = ⌊q⌋ + 1 := by
  unfold Crypto.rne
  split
  · exact Or.inl rfl
  split
  · exact Or.inr rfl
  split
  · exact Or.inl rfl
  · exact Or.inr rfl

theorem rne_nonneg (q : K) (hq : 0 ≤ q) : 0 ≤ Crypto.rne q := by
  have hf : (0:ℤ) ≤ ⌊q⌋ := Int.floor_nonneg.mpr hq
  rcases rne_eq_floor_or q with h | h <;> omega

theorem fl_eq_of_pos (p : ℕ) (q : K) (hq : 0 < q) :
    Crypto.fl p q = (Crypto.rne (q / 2 ^ (intLog 2 q + 1 - (p : ℤ))) : K) *
      2 ^ (intLog 2 q + 1 - (p : ℤ)) := by
  simp only [Crypto.fl, if_neg hq.ne', abs_of_pos hq, if_neg (not_lt.mpr hq.le), one_mul]

theorem fl_neg (p : ℕ) (q : K) : Crypto.fl p (-q) = -Crypto.fl p q := by
  rcases lt_trichotomy q 0 with h | h | h
  · have hq : 0 < -q := by linarith
    rw [fl_eq_of_pos p (-q) hq]
    simp only [Crypto.fl, if_neg h.ne, if_pos h, abs_of_neg h, neg_mul, one_mul, neg_neg]
  · simp [h, fl_zero]
  · rw [fl_eq_of_pos p q h]
    simp only [Crypto.fl, if_neg (neg_ne_zero.mpr h.ne'), if_pos (neg_lt_zero.mpr h),
      abs_neg, abs_of_pos h, neg_mul, one_mul]

theorem fl_nonneg (p : ℕ) (q : K) (hq : 0 ≤ q) : 0 ≤ Crypto.fl p q := by
  rcases eq_or_lt_of_le hq with h | h
  · rw [← h, fl_zero]
  · rw [fl_eq_of_pos p q h]
    have hr : (0:ℤ) ≤ Crypto.rne (q / 2 ^ (intLog 2 q + 1 - (p : ℤ))) := by
      apply rne_nonneg
      positivity
    have h2 : (0:K) < 2 ^ (intLog 2 q + 1 - (p : ℤ)) := zpow_pos (by norm_num) _
    have : (0:K) ≤ (Crypto.rne (q / 2 ^ (intLog 2 q + 1 - (p : ℤ))) : K) := by
      exact_mod_cast hr
    positivity

theorem fl_abs_sub_le_of_pos (p : ℕ) (q : K) (hq : 0 < q) :
    |Crypto.fl p q - q| ≤ q / 2 ^ p := by
  rw [fl_eq_of_pos p q hq]
  set e : ℤ := intLog 2 q + 1 - (p : ℤ) with he
  have hL : (2:K) ^ (intLog 2 q) ≤ q := by
    rw [intLog_eq]
    exact Int.zpow_log_le_self (by norm_num) hq
  have h2e : (0:K) < 2 ^ e := zpow_pos (by norm_num) e
  have herr := rne_abs_sub_le (q / 2 ^ e)
  have key : |(Crypto.rne (q / 2 ^ e) : K) * 2 ^ e - q| =
      |(Crypto.rne (q / 2 ^ e) : K) - q / 2 ^ e| * 2 ^ e := by
    rw [← abs_of_pos h2e, ← abs_mul, abs_of_pos h2e]
    congr 1
    field_simp
  rw [key]
  have step1 : |(Crypto.rne (q / 2 ^ e) : K) - q / 2 ^ e| * 2 ^ e ≤ (1/2) * 2 ^ e :=
    mul_le_mul_of_nonneg_right herr h2e.le
  have step2 : (1/2 : K) * 2 ^ e ≤ q / 2 ^ p := by
    rw [le_div_iff (by positivity : (0:K) < 2 ^ p)]
    calc (1/2:K) * 2 ^ e * 2 ^ p = 2 ^ (intLog 2 q) := by
          rw [← zpow_natCast (2:K) p, mul_assoc, ← zpow_add₀ (two_ne_zero (α := K)) e (p:ℤ)]
          have hexp : e + (p:ℤ) = intLog 2 q + 1 := by rw [he]; ring
          rw [hexp, zpow_add₀ (two_ne_zero (α := K)), zpow_one]
          ring
      _ ≤ q := hL
  linarith

theorem fl_abs_sub_le (p : ℕ) (q : K) : |Crypto.fl p q - q| ≤ |q| / 2 ^ p := by
  rcases lt_trichotomy q 0 with h | h | h
  · have hq : 0 < -q := by linarith
    have := fl_abs_sub_le_of_pos p (-q) hq
    rw [fl_neg] at this
    rw [abs_of_neg h]
    calc |Crypto.fl p q - q| = |(-(Crypto.fl p q - q))| := (abs_neg _).symm
      _ = |(-Crypto.fl p q) - -q| := by ring_nf
      _ ≤ -q / 2 ^ p := this
  · simp [h, fl_zero]
  · rw [abs_of_pos h]
    exact fl_abs_sub_le_of_pos p q h

theorem roundAway_abs_sub_le (q : K) : |(Crypto.roundAway q : K) - q| ≤ 1 / 2 := by
  unfold Crypto.roundAway
  split
  · have h0 : (⌊q + 1/2⌋ : K) ≤ q + 1/2 := Int.floor_le _
    have h1 : q + 1/2 < ⌊q + 1/2⌋ + 1 := Int.lt_floor_add_one _
    rw [abs_le]
    constructor <;> push_cast <;> linarith
  · have h0 : (⌊-q + 1/2⌋ : K) ≤ -q + 1/2 := Int.floor_le _
    have h1 : -q + 1/2 < ⌊-q + 1/2⌋ + 1 := Int.lt_floor_add_one _
    rw [abs_le]
    constructor <;> push_cast <;> linarith

theorem roundAway_nonneg (q : K) (hq : 0 ≤ q) : 0 ≤ Crypto.roundAway q := by
  unfold Crypto.roundAway
  rw [if_pos hq]
  exact Int.floor_nonneg.mpr (by linarith)

theorem precision7_eq (x : K) (hx : x ≠ 0) :
    Crypto.precision_f32 x 7 =
      Crypto.fl 24 (Crypto.fl 53
        ((Crypto.roundAway (Crypto.fl 53 (x * 10 ^ ((7:ℤ) - intClog 10 |x|))) : K) /
          10 ^ ((7:ℤ) - intClog 10 |x|))) := by
  unfold Crypto.precision_f32
  rw [if_neg (by push_neg; exact ⟨hx, by norm_num⟩)]
  rfl

theorem precision7_abs_sub_le (x : K) :
    |Crypto.precision_f32 x 7 - x| ≤ |x| * (6 / 10 ^ 7) := by
  by_cases hx : x = 0
  · simp [hx, Crypto.precision_f32]
  rw [precision7_eq x hx]
  set c : ℤ := intClog 10 |x| with hc
  set F : K := 10 ^ ((7:ℤ) - c) with hF
  have habs : (0:K) < |x| := abs_pos.mpr hx
  have hFpos : (0:K) < F := zpow_pos (by norm_num) _
  have hcc : c = Int.clog 10 |x| := intClog_eq 10 |x|
  have hlb : (10:K) ^ (c - 1) < |x| := by
    rw [hcc]
    exact Int.zpow_pred_clog_lt_self (by norm_num) habs
  have hFinv : 1 / F < |x| * (1 / 1000000) := by
    have h1 : (1:K) / F = 10 ^ (c - (7:ℤ)) := by
      rw [hF, one_div, ← zpow_neg]
      congr 1
      ring
    have h2 : (10:K) ^ (c - (7:ℤ)) = 10 ^ (c - 1) * 10 ^ (-(6:ℤ)) := by
      rw [← zpow_add₀ (by norm_num : (10:K) ≠ 0)]
      congr 1
      ring
    have h3 : (10:K) ^ (-(6:ℤ)) = 1 / 1000000 := by
      rw [zpow_neg]
      norm_num
    rw [h1, h2, h3]
    exact mul_lt_mul_of_pos_right hlb (by norm_num)
  set u : K := x * F with hu
  set u1 : K := Crypto.fl 53 u with hu1
  set k : ℤ := Crypto.roundAway u1 with hk
  set v : K := (k : K) / F with hv
  set v1 : K := Crypto.fl 53 v with hv1
  have huabs : |u| = |x| * F := by rw [hu, abs_mul, abs_of_pos hFpos]
  have e1 : |u1 - u| ≤ |x| * F / 2 ^ 53 := by
    rw [← huabs]
    exact fl_abs_sub_le 53 u
  have e2 : |(k:K) - u1| ≤ 1/2 := roundAway_abs_sub_le u1
  have e3 : |v - x| ≤ 1/2 * (1/F) + |x| / 2 ^ 53 := by
    have hxeq : v - x = ((k:K) - u) / F := by
      rw [hv, hu]
      field_simp
      ring
    rw [hxeq, abs_div, abs_of_pos hFpos]
    have htri : |(k:K) - u| ≤ 1/2 + |x| * F / 2 ^ 53 :=
      le_trans (abs_sub_le (k:K) u1 u) (add_le_add e2 e1)
    calc |(k:K) - u| / F ≤ (1/2 + |x| * F / 2 ^ 53) / F := by gcongr
      _ = 1/2 * (1/F) + |x| / 2 ^ 53 := by field_simp; ring
  have hvx : |v - x| ≤ |x| * (1/2000000 + 1/2 ^ 53) := by
    calc |v - x| ≤ 1/2 * (1/F) + |x| / 2 ^ 53 := e3
      _ ≤ 1/2 * (|x| * (1/1000000)) + |x| / 2 ^ 53 := by
          have := mul_le_mul_of_nonneg_left hFinv.le (by norm_num : (0:K) ≤ 1/2)
          linarith
      _ = |x| * (1/2000000 + 1/2 ^ 53) := by ring
  have hvabs : |v| ≤ |x| * (6/5) := by
    have htri : |v| ≤ |v - x| + |x| := by
      calc |v| = |v - x + x| := by ring_nf
        _ ≤ |v - x| + |x| := abs_add _ _
    have hcoef : |x| * (1/2000000 + 1/2 ^ 53) + |x| ≤ |x| * (6/5) := by
      have h6 : (1/2000000 + 1/2 ^ 53 + 1 : K) ≤ 6/5 := by norm_num
      calc |x| * (1/2000000 + 1/2 ^ 53) + |x| = |x| * (1/2000000 + 1/2 ^ 53 + 1) := by ring
        _ ≤ |x| * (6/5) := mul_le_mul_of_nonneg_left h6 (abs_nonneg x)
    linarith
  have e4 : |v1 - v| ≤ |x| * (6/5) / 2 ^ 53 :=
    le_trans (fl_abs_sub_le 53 v) (by gcongr)
  have hv1abs : |v1| ≤ |x| * (5/4) := by
    have htri : |v1| ≤ |v| + |v1 - v| := by
      calc |v1| = |v + (v1 - v)| := by ring_nf
        _ ≤ |v| + |v1 - v| := abs_add _ _
    have hcoef : |x| * (6/5) + |x| * (6/5) / 2 ^ 53 ≤ |x| * (5/4) := by
      have h6 : (6/5 + 6/5 / 2 ^ 53 : K) ≤ 5/4 := by norm_num
      calc |x| * (6/5) + |x| * (6/5) / 2 ^ 53 = |x| * (6/5 + 6/5 / 2 ^ 53) := by ring
        _ ≤ |x| * (5/4) := mul_le_mul_of_nonneg_left h6 (abs_nonneg x)
    linarith
  have e5 : |Crypto.fl 24 v1 - v1| ≤ |x| * (5/4) / 2 ^ 24 :=
    le_trans (fl_abs_sub_le 24 v1) (by gcongr)
  have hfinal : |Crypto.fl 24 v1 - x| ≤
      |x| * (5/4) / 2 ^ 24 + |x| * (6/5) / 2 ^ 53 + |x| * (1/2000000 + 1/2 ^ 53) := by
    have t1 : |Crypto.fl 24 v1 - x| ≤ |Crypto.fl 24 v1 - v1| + |v1 - x| :=
      abs_sub_le _ v1 x
    have t2 : |v1 - x| ≤ |v1 - v| + |v - x| := abs_sub_le v1 v x
    linarith
  have hcoef : |x| * (5/4) / 2 ^ 24 + |x| * (6/5) / 2 ^ 53 + |x| * (1/2000000 + 1/2 ^ 53) ≤
      |x| * (6 / 10 ^ 7) := by
    have h6 : (5/4 / 2 ^ 24 + 6/5 / 2 ^ 53 + (1/2000000 + 1/2 ^ 53) : K) ≤ 6 / 10 ^ 7 := by
      norm_num
    calc |x| * (5/4) / 2 ^ 24 + |x| * (6/5) / 2 ^ 53 + |x| * (1/2000000 + 1/2 ^ 53)
        = |x| * (5/4 / 2 ^ 24 + 6/5 / 2 ^ 53 + (1/2000000 + 1/2 ^ 53)) := by ring
      _ ≤ |x| * (6 / 10 ^ 7) := mul_le_mul_of_nonneg_left h6 (abs_nonneg x)
  linarith

theorem precision_nonneg (x : K) (d : ℕ) (hx : 0 ≤ x) :
    0 ≤ Crypto.precision_f32 x d := by
  rcases eq_or_lt_of_le hx with h | h
  · simp [← h, Crypto.precision_f32]
  by_cases hd : d = 0
  · simp [hd, Crypto.precision_f32]
  rw [show Crypto.precision_f32 x d =
      Crypto.fl 24 (Crypto.fl 53
        ((Crypto.roundAway (Crypto.fl 53 (x * 10 ^ ((d:ℤ) - intClog 10 |x|))) : K) /
          10 ^ ((d:ℤ) - intClog 10 |x|))) by
    unfold Crypto.precision_f32
    rw [if_neg (by push_neg; exact ⟨h.ne', hd⟩)]]
  apply fl_nonneg
  apply fl_nonneg
  apply div_nonneg _ (zpow_pos (by norm_num : (0:K) < 10) _).le
  have hr : (0:ℤ) ≤ Crypto.roundAway (Crypto.fl 53 (x * 10 ^ ((d:ℤ) - intClog 10 |x|))) := by
    apply roundAway_nonneg
    apply fl_nonneg
    exact mul_nonneg h.le (zpow_pos (by norm_num : (0:K) < 10) _).le
  exact_mod_cast hr

end ErrorBounds

theorem toU32_cast (z : ℤ) : (toU32 z : ℤ) = z % 2 ^ 32 := by
  unfold toU32
  rw [Int.toNat_of_nonneg (Int.emod_nonneg z (by norm_num))]

theorem toI32_spec (n : ℕ) :
    toI32 n % 2 ^ 32 = (n : ℤ) % 2 ^ 32 ∧ -2 ^ 31 ≤ toI32 n ∧ toI32 n < 2 ^ 31 := by
  unfold toI32
  split <;> push_cast <;> omega

theorem next_f32_nonneg (st : State) : 0 ≤ (next_f32 st).1 := by
  have h1 : (next_f32 st).1 =
      Crypto.fl 24 ((((Crypto.next_u32 st).1 &&& 0x7FFFFF : ℕ) : ℚ) / 0x7FFFFF) := rfl
  rw [h1]
  exact fl_nonneg _ _ (by positivity)

theorem next_f32_le_one (st : State) : (next_f32 st).1 ≤ 1 := by
  have h1 : (next_f32 st).1 =
      Crypto.fl 24 ((((Crypto.next_u32 st).1 &&& 0x7FFFFF : ℕ) : ℚ) / 0x7FFFFF) := rfl
  rw [h1]
  set m : ℕ := (Crypto.next_u32 st).1 &&& 0x7FFFFF with hm
  have hmle : m ≤ 8388607 := Nat.and_le_right
  by_cases hm8 : m = 8388607
  · rw [show ((m : ℚ) / 0x7FFFFF) = 1 by rw [hm8]; norm_num]
    rw [show Crypto.fl 24 (1:ℚ) = 1 from by decide]
  · have hq0 : (0:ℚ) ≤ (m:ℚ) / 0x7FFFFF := by positivity
    have hq1 : (m:ℚ) / 0x7FFFFF ≤ 8388606 / 8388607 := by
      have : (m:ℚ) ≤ 8388606 := by exact_mod_cast (by omega : m ≤ 8388606)
      rw [show ((0x7FFFFF : ℚ)) = 8388607 by norm_num]
      gcongr
    have herr := (abs_le.mp (fl_abs_sub_le 24 ((m:ℚ) / 0x7FFFFF))).2
    rw [abs_of_nonneg hq0] at herr
    have hfl_le : Crypto.fl 24 ((m:ℚ) / 0x7FFFFF) ≤
        (m:ℚ) / 0x7FFFFF * (1 + 1 / 2 ^ 24) := by
      have h2 : (m:ℚ) / 0x7FFFFF * (1 + 1 / 2 ^ 24) =
          (m:ℚ) / 0x7FFFFF + ((m:ℚ) / 0x7FFFFF) / 2 ^ 24 := by ring
      rw [h2]
      linarith
    calc Crypto.fl 24 ((m:ℚ) / 0x7FFFFF) ≤ (m:ℚ) / 0x7FFFFF * (1 + 1 / 2 ^ 24) := hfl_le
      _ ≤ 8388606 / 8388607 * (1 + 1 / 2 ^ 24) :=
          mul_le_mul_of_nonneg_right hq1 (by norm_num)
      _ ≤ 1 := by norm_num

/-- C3 (amended): for i32 bounds with `min < max`, `range_int` returns a
value in `[min, max)`; for `min = max` it returns `min` (which the
claimed half-open interval cannot contain); `range_float` with `min ≤ max`
returns a value within `[min, max]` up to a relative rounding tolerance of
`2e-6 * max(|min|, |max|)`. -/
theorem range_bounds (st : State) (lo hi : ℤ) (a b : ℚ)
    (hb1 : -2 ^ 31 ≤ lo) (hb2 : hi < 2 ^ 31) :
    (lo < hi → lo ≤ (range_int lo hi st).1 ∧ (range_int lo hi st).1 < hi) ∧
    (lo = hi → (range_int lo hi st).1 = lo) ∧
    (a ≤ b →
      a - max |a| |b| * (2 / 10 ^ 6) ≤ (range_float a b st).1 ∧
      (range_float a b st).1 ≤ b + max |a| |b| * (2 / 10 ^ 6)) := by
  refine ⟨?_, ?_, ?_⟩
  · -- integer branch, nonempty range
    intro hlt
    have hmm : (if hi < lo then (hi, lo) else (lo, hi)) = (lo, hi) :=
      if_neg (not_lt.mpr hlt.le)
    have hdiff : (toU32 (hi - lo) : ℤ) = hi - lo := by
      rw [toU32_cast]
      omega
    have hdpos : 0 < toU32 (hi - lo) := by omega
    set u : ℕ := (Crypto.next_u32 st).1 with hu
    have hres : (range_int lo hi st).1 =
        toI32 (toU32 (lo + toI32 (u % toU32 (hi - lo)))) := by
      unfold range_int
      rw [hmm]
      simp only [if_pos hdpos]
    set r : ℕ := u % toU32 (hi - lo) with hr
    have hrlt : (r : ℤ) < hi - lo := by
      have := Nat.mod_lt u hdpos
      omega
    have hrnn : (0:ℤ) ≤ (r : ℤ) := by positivity
    obtain ⟨ha1, ha2, ha3⟩ := toI32_spec r
    have hb' : (toU32 (lo + toI32 r) : ℤ) = (lo + toI32 r) % 2 ^ 32 := toU32_cast _
    obtain ⟨hc1, hc2, hc3⟩ := toI32_spec (toU32 (lo + toI32 r))
    rw [hres]
    rw [hb'] at hc1
    omega
  · -- integer branch, empty range
    intro heq
    subst heq
    unfold range_int
    simp [toU32]
  · -- float branch
    intro hab
    set f : ℚ := (next_f32 st).1 with hf
    have hf0 : 0 ≤ f := next_f32_nonneg st
    have hf1 : f ≤ 1 := next_f32_le_one st
    set M : ℚ := max |a| |b| with hM
    have hMa : |a| ≤ M := le_max_left _ _
    have hMb : |b| ≤ M := le_max_right _ _
    have hM0 : 0 ≤ M := le_trans (abs_nonneg a) hMa
    set t1 : ℚ := Crypto.fl 24 (1 - f) with ht1
    set t2 : ℚ := Crypto.fl 24 (t1 * b) with ht2
    set t3 : ℚ := Crypto.fl 24 (f * a) with ht3
    set w : ℚ := Crypto.fl 24 (t2 + t3) with hw
    have hwdef : (range_float a b st).1 = Crypto.precision_f32 w 7 := rfl
    set z0 : ℚ := (1 - f) * b + f * a with hz0
    have hz0a : a ≤ z0 := by
      have h := mul_nonneg (by linarith : (0:ℚ) ≤ 1 - f) (by linarith : (0:ℚ) ≤ b - a)
      rw [hz0]
      nlinarith
    have hz0b : z0 ≤ b := by
      have h := mul_nonneg hf0 (by linarith : (0:ℚ) ≤ b - a)
      rw [hz0]
      nlinarith
    have hz0abs : |z0| ≤ M := by
      rw [abs_le]
      constructor
      · linarith [neg_abs_le a, hz0a]
      · linarith [le_abs_self b, hz0b]
    have e1 : |t1 - (1 - f)| ≤ 1 / 2 ^ 24 := by
      have h := fl_abs_sub_le 24 (1 - f)
      have habs : |(1:ℚ) - f| ≤ 1 := by rw [abs_le]; constructor <;> linarith
      calc |t1 - (1 - f)| ≤ |1 - f| / 2 ^ 24 := h
        _ ≤ 1 / 2 ^ 24 := by gcongr
    have ht1abs : |t1| ≤ 2 := by
      have habs : |(1:ℚ) - f| ≤ 1 := by rw [abs_le]; constructor <;> linarith
      calc |t1| = |(1 - f) + (t1 - (1 - f))| := by ring_nf
        _ ≤ |1 - f| + |t1 - (1 - f)| := abs_add _ _
        _ ≤ 2 := by
            have : (1 : ℚ) + 1 / 2 ^ 24 ≤ 2 := by norm_num
            linarith
    have e2 : |t2 - t1 * b| ≤ 2 * M / 2 ^ 24 := by
      have h := fl_abs_sub_le 24 (t1 * b)
      have habs : |t1 * b| ≤ 2 * M := by
        rw [abs_mul]
        exact mul_le_mul ht1abs hMb (abs_nonneg b) (by norm_num)
      calc |t2 - t1 * b| ≤ |t1 * b| / 2 ^ 24 := h
        _ ≤ 2 * M / 2 ^ 24 := by gcongr
    have e2' : |t1 * b - (1 - f) * b| ≤ M / 2 ^ 24 := by
      have : t1 * b - (1 - f) * b = (t1 - (1 - f)) * b := by ring
      rw [this, abs_mul]
      calc |t1 - (1 - f)| * |b| ≤ (1 / 2 ^ 24) * M :=
            mul_le_mul e1 hMb (abs_nonneg b) (by norm_num)
        _ = M / 2 ^ 24 := by ring
    have e3 : |t3 - f * a| ≤ M / 2 ^ 24 := by
      have h := fl_abs_sub_le 24 (f * a)
      have habs : |f * a| ≤ M := by
        rw [abs_mul, abs_of_nonneg hf0]
        calc f * |a| ≤ 1 * M := mul_le_mul hf1 hMa (abs_nonneg a) (by norm_num)
          _ = M := by ring
      calc |t3 - f * a| ≤ |f * a| / 2 ^ 24 := h
        _ ≤ M / 2 ^ 24 := by gcongr
    have ht23 : |t2 + t3 - z0| ≤ 2 * M / 2 ^ 24 + M / 2 ^ 24 + M / 2 ^ 24 := by
      have hd : t2 + t3 - z0 =
          (t2 - t1 * b) + (t1 * b - (1 - f) * b) + (t3 - f * a) := by
        rw [hz0]
        ring
      rw [hd]
      calc |(t2 - t1 * b) + (t1 * b - (1 - f) * b) + (t3 - f * a)|
          ≤ |(t2 - t1 * b) + (t1 * b - (1 - f) * b)| + |t3 - f * a| := abs_add _ _
        _ ≤ |t2 - t1 * b| + |t1 * b - (1 - f) * b| + |t3 - f * a| := by
            have := abs_add (t2 - t1 * b) (t1 * b - (1 - f) * b)
            linarith
        _ ≤ 2 * M / 2 ^ 24 + M / 2 ^ 24 + M / 2 ^ 24 := by
            linarith [e2, e2', e3]
    have ht23abs : |t2 + t3| ≤ 2 * M := by
      calc |t2 + t3| = |z0 + (t2 + t3 - z0)| := by ring_nf
        _ ≤ |z0| + |t2 + t3 - z0| := abs_add _ _
        _ ≤ M + (2 * M / 2 ^ 24 + M / 2 ^ 24 + M / 2 ^ 24) := by linarith
        _ ≤ 2 * M := by linarith [hM0]
    have e4 : |w - (t2 + t3)| ≤ 2 * M / 2 ^ 24 := by
      have h := fl_abs_sub_le 24 (t2 + t3)
      calc |w - (t2 + t3)| ≤ |t2 + t3| / 2 ^ 24 := h
        _ ≤ 2 * M / 2 ^ 24 := by gcongr
    have hwz : |w - z0| ≤ 6 * M / 2 ^ 24 := by
      calc |w - z0| ≤ |w - (t2 + t3)| + |t2 + t3 - z0| := abs_sub_le _ _ _
        _ ≤ 6 * M / 2 ^ 24 := by linarith
    have hwabs : |w| ≤ 2 * M := by
      calc |w| = |z0 + (w - z0)| := by ring_nf
        _ ≤ |z0| + |w - z0| := abs_add _ _
        _ ≤ M + 6 * M / 2 ^ 24 := by linarith
        _ ≤ 2 * M := by linarith [hM0]
    have e5 : |Crypto.precision_f32 w 7 - w| ≤ 2 * M * (6 / 10 ^ 7) := by
      have h := precision7_abs_sub_le w
      calc |Crypto.precision_f32 w 7 - w| ≤ |w| * (6 / 10 ^ 7) := h
        _ ≤ 2 * M * (6 / 10 ^ 7) := by
            exact mul_le_mul_of_nonneg_right hwabs (by norm_num)
    have htot : |Crypto.precision_f32 w 7 - z0| ≤ M * (2 / 10 ^ 6) := by
      calc |Crypto.precision_f32 w 7 - z0|
          ≤ |Crypto.precision_f32 w 7 - w| + |w - z0| := abs_sub_le _ _ _
        _ ≤ 2 * M * (6 / 10 ^ 7) + 6 * M / 2 ^ 24 := by linarith
        _ = M * (2 * (6 / 10 ^ 7) + 6 / 2 ^ 24) := by ring
        _ ≤ M * (2 / 10 ^ 6) :=
            mul_le_mul_of_nonneg_left (by norm_num) hM0
    rw [hwdef]
    have habs := abs_le.mp htot
    constructor <;> linarith [habs.1, habs.2]

/-- C3 counterexample: with `min = max` (an instance of `min ≤ max`), the
result is `min` itself, which the claimed half-open interval `[min, max)`
cannot contain. -/
theorem range_int_empty_range_counterexample :
    (range_int 0 0 (init_state 0)).1 = 0 ∧ ¬ (range_int 0 0 (init_state 0)).1 < 0 := by
  decide

/-- Witness for range_bounds at concrete inputs. -/
theorem range_bounds_witness :
    (0 ≤ (range_int 0 10 (init_state 0)).1 ∧ (range_int 0 10 (init_state 0)).1 < 10) ∧
    (range_int 3 3 (init_state 0)).1 = 3 ∧
    ((0:ℚ) - max |(0:ℚ)| |(1:ℚ)| * (2 / 10 ^ 6) ≤ (range_float 0 1 (init_state 0)).1 ∧
      (range_float 0 1 (init_state 0)).1 ≤ 1 + max |(0:ℚ)| |(1:ℚ)| * (2 / 10 ^ 6)) :=
  ⟨(range_bounds (init_state 0) 0 10 0 1 (by norm_num) (by norm_num)).1 (by norm_num),
    (range_bounds (init_state 0) 3 3 0 1 (by norm_num) (by norm_num)).2.1 rfl,
    (range_bounds (init_state 0) 0 10 0 1 (by norm_num) (by norm_num)).2.2 (by norm_num)⟩

theorem next_f32_ne_half (st : State) : (next_f32 st).1 ≠ 1 / 2 := by
  have h1 : (next_f32 st).1 =
      Crypto.fl 24 ((((Crypto.next_u32 st).1 &&& 0x7FFFFF : ℕ) : ℚ) / 0x7FFFFF) := rfl
  rw [h1]
  set m : ℕ := (Crypto.next_u32 st).1 &&& 0x7FFFFF with hm
  have hmle : m ≤ 8388607 := Nat.and_le_right
  intro hcontra
  have herr := fl_abs_sub_le 24 ((m : ℚ) / 0x7FFFFF)
  rw [hcontra] at herr
  have hq0 : (0:ℚ) ≤ (m : ℚ) / 0x7FFFFF := by positivity
  rw [abs_of_nonneg hq0] at herr
  obtain ⟨hlo, hhi⟩ := abs_le.mp herr
  have hD : ((0x7FFFFF : ℚ)) = 8388607 := by norm_num
  rw [hD] at hlo hhi
  have k1 : (8388607 * 2 ^ 24 : ℕ) ≤ 2 * m * 2 ^ 24 + 2 * m := by
    have : (8388607 * 2 ^ 24 : ℚ) ≤ 2 * m * 2 ^ 24 + 2 * m := by linarith
    exact_mod_cast this
  have k2 : (2 * m * 2 ^ 24 : ℕ) ≤ 8388607 * 2 ^ 24 + 2 * m := by
    have : (2 * m * 2 ^ 24 : ℚ) ≤ 8388607 * 2 ^ 24 + 2 * m := by linarith
    exact_mod_cast this
  omega

theorem precision7_sq_sum_close (u1 u2 u3 u4 : ℝ)
    (hsum : u1 ^ 2 + u2 ^ 2 + u3 ^ 2 + u4 ^ 2 = 1) (hw : 0 ≤ u4) :
    |(Crypto.precision_f32 u1 7) ^ 2 + (Crypto.precision_f32 u2 7) ^ 2 +
      (Crypto.precision_f32 u3 7) ^ 2 + (Crypto.precision_f32 u4 7) ^ 2 - 1| ≤ 1 / 100000 ∧
    0 ≤ Crypto.precision_f32 u4 7 := by
  have key : ∀ u : ℝ, |(Crypto.precision_f32 u 7) ^ 2 - u ^ 2| ≤ u ^ 2 * (13 / 10 ^ 7) := by
    intro u
    have h := precision7_abs_sub_le u
    have habs2 : |Crypto.precision_f32 u 7 + u| ≤ 2 * |u| + |u| * (6 / 10 ^ 7) := by
      have h2 : Crypto.precision_f32 u 7 + u = (Crypto.precision_f32 u 7 - u) + 2 * u := by
        ring
      rw [h2]
      calc |(Crypto.precision_f32 u 7 - u) + 2 * u|
          ≤ |Crypto.precision_f32 u 7 - u| + |2 * u| := abs_add _ _
        _ ≤ 2 * |u| + |u| * (6 / 10 ^ 7) := by
            rw [abs_mul, abs_two]
            linarith
    have hmul : |(Crypto.precision_f32 u 7) ^ 2 - u ^ 2| =
        |Crypto.precision_f32 u 7 - u| * |Crypto.precision_f32 u 7 + u| := by
      rw [← abs_mul]
      congr 1
      ring
    rw [hmul]
    calc |Crypto.precision_f32 u 7 - u| * |Crypto.precision_f32 u 7 + u|
        ≤ (|u| * (6 / 10 ^ 7)) * (2 * |u| + |u| * (6 / 10 ^ 7)) :=
          mul_le_mul h habs2 (abs_nonneg _) (by positivity)
      _ = (|u| * |u|) * (6 / 10 ^ 7 * (2 + 6 / 10 ^ 7)) := by ring
      _ ≤ u ^ 2 * (13 / 10 ^ 7) := by
          rw [abs_mul_abs_self]
          have hc : (6 / 10 ^ 7 * (2 + 6 / 10 ^ 7) : ℝ) ≤ 13 / 10 ^ 7 := by norm_num
          have hsq : u * u = u ^ 2 := by ring
          rw [hsq]
          exact mul_le_mul_of_nonneg_left hc (sq_nonneg u)
  have k1 := abs_le.mp (key u1)
  have k2 := abs_le.mp (key u2)
  have k3 := abs_le.mp (key u3)
  have k4 := abs_le.mp (key u4)
  have hnn1 : (0:ℝ) ≤ u1 ^ 2 := sq_nonneg u1
  have hnn2 : (0:ℝ) ≤ u2 ^ 2 := sq_nonneg u2
  have hnn3 : (0:ℝ) ≤ u3 ^ 2 := sq_nonneg u3
  have hnn4 : (0:ℝ) ≤ u4 ^ 2 := sq_nonneg u4
  constructor
  · rw [abs_le]
    constructor <;> nlinarith [k1.1, k1.2, k2.1, k2.2, k3.1, k3.2, k4.1, k4.2]
  · exact precision_nonneg u4 7 hw

theorem internR_pm_one_eq (st : State) :
    (range_float_internR (-1) 1 st).1 = 1 - 2 * (((next_f32 st).1 : ℚ) : ℝ) := by
  show (1 - (((next_f32 st).1 : ℚ) : ℝ)) * 1 + (((next_f32 st).1 : ℚ) : ℝ) * (-1) = _
  ring

theorem internR_pm_one_ne_zero (st : State) : (range_float_internR (-1) 1 st).1 ≠ 0 := by
  rw [internR_pm_one_eq st]
  intro hcontra
  apply next_f32_ne_half st
  have h2 : (((next_f32 st).1 : ℚ) : ℝ) = (((1:ℚ) / 2 : ℚ) : ℝ) := by
    push_cast
    linarith
  exact Rat.cast_injective h2

/-- C9: every quaternion returned by `rotation` and by `rotation_uniform`
has squared norm within `1e-5` of 1 and nonnegative `w` component, for
every generator state. -/
theorem rotation_quaternions_normalized (st : State) :
    (|((rotation st).1.1) ^ 2 + ((rotation st).1.2.1) ^ 2 + ((rotation st).1.2.2.1) ^ 2 +
        ((rotation st).1.2.2.2) ^ 2 - 1| ≤ 1 / 100000 ∧
      0 ≤ (rotation st).1.2.2.2) ∧
    (|((rotation_uniform st).1.1) ^ 2 + ((rotation_uniform st).1.2.1) ^ 2 +
        ((rotation_uniform st).1.2.2.1) ^ 2 + ((rotation_uniform st).1.2.2.2) ^ 2 - 1| ≤
        1 / 100000 ∧
      0 ≤ (rotation_uniform st).1.2.2.2) := by
  constructor
  · -- rotation
    set p1 := range_float_internR (-1) 1 st with hp1
    set p2 := range_float_internR (-1) 1 p1.2 with hp2
    set p3 := range_float_internR (-1) 1 p2.2 with hp3
    set p4 := range_float_internR (-1) 1 p3.2 with hp4
    set mag0 := Real.sqrt (p1.1 ^ 2 + p2.1 ^ 2 + p3.1 ^ 2 + p4.1 ^ 2) with hmag0
    set mag : ℝ := if p4.1 < 0 then -mag0 else mag0 with hmag
    have hdef : rotation st =
        ((Crypto.precision_f32 (p1.1 / mag) 7, Crypto.precision_f32 (p2.1 / mag) 7,
          Crypto.precision_f32 (p3.1 / mag) 7, Crypto.precision_f32 (p4.1 / mag) 7),
          p4.2) := rfl
    have hx1 := internR_pm_one_ne_zero st
    have hx4 := internR_pm_one_ne_zero p3.2
    rw [← hp1] at hx1
    rw [← hp4] at hx4
    have hS : 0 < p1.1 ^ 2 + p2.1 ^ 2 + p3.1 ^ 2 + p4.1 ^ 2 := by
      have h1 : 0 < p1.1 ^ 2 := pow_two_pos_of_ne_zero hx1
      nlinarith [sq_nonneg p2.1, sq_nonneg p3.1, sq_nonneg p4.1]
    have hmag0pos : 0 < mag0 := Real.sqrt_pos.mpr hS
    have hmag0sq : mag0 ^ 2 = p1.1 ^ 2 + p2.1 ^ 2 + p3.1 ^ 2 + p4.1 ^ 2 :=
      Real.sq_sqrt hS.le
    have hmagsq : mag ^ 2 = mag0 ^ 2 := by
      rw [hmag]
      split <;> ring
    have hmagne : mag ≠ 0 := by
      rw [hmag]
      split
      · exact neg_ne_zero.mpr hmag0pos.ne'
      · exact hmag0pos.ne'
    have hsum : (p1.1 / mag) ^ 2 + (p2.1 / mag) ^ 2 + (p3.1 / mag) ^ 2 +
        (p4.1 / mag) ^ 2 = 1 := by
      rw [div_pow, div_pow, div_pow, div_pow]
      rw [div_add_div_same, div_add_div_same, div_add_div_same, hmagsq, hmag0sq]
      exact div_self hS.ne'
    have hwpos : 0 ≤ p4.1 / mag := by
      rw [hmag]
      rcases lt_or_le p4.1 0 with h | h
      · rw [if_pos h]
        exact (div_pos_of_neg_of_neg h (neg_lt_zero.mpr hmag0pos)).le
      · rw [if_neg (not_lt.mpr h)]
        exact (div_nonneg h hmag0pos.le)
    rw [hdef]
    exact precision7_sq_sum_close _ _ _ _ hsum hwpos
  · -- rotation_uniform
    set p1 := range_float_internR 0 1 st with hp1
    set p2 := range_float_internR 0 (2 * Real.pi) p1.2 with hp2
    set p3 := range_float_internR 0 (2 * Real.pi) p2.2 with hp3
    set sqrt1 := Real.sqrt p1.1 with hsqrt1
    set inv := Real.sqrt (1 - p1.1) with hinv
    set x := inv * Real.sin p2.1 with hxdef
    set y := inv * Real.cos p2.1 with hydef
    set z := sqrt1 * Real.sin p3.1 with hzdef
    set w := sqrt1 * Real.cos p3.1 with hwdef
    set q : ℝ × ℝ × ℝ × ℝ := if w < 0 then (-x, -y, -z, -w) else (x, y, z, w) with hq
    have hdef : rotation_uniform st =
        ((Crypto.precision_f32 q.1 7, Crypto.precision_f32 q.2.1 7,
          Crypto.precision_f32 q.2.2.1 7, Crypto.precision_f32 q.2.2.2 7), p3.2) := rfl
    have hf0 : (0:ℚ) ≤ (next_f32 st).1 := next_f32_nonneg st
    have hf1 : (next_f32 st).1 ≤ 1 := next_f32_le_one st
    have hp1val : p1.1 = 1 - (((next_f32 st).1 : ℚ) : ℝ) := by
      rw [hp1]
      show (1 - (((next_f32 st).1 : ℚ) : ℝ)) * 1 + (((next_f32 st).1 : ℚ) : ℝ) * 0 = _
      ring
    have hu0 : 0 ≤ p1.1 := by
      rw [hp1val]
      have : (((next_f32 st).1 : ℚ) : ℝ) ≤ 1 := by exact_mod_cast hf1
      linarith
    have hu1 : p1.1 ≤ 1 := by
      rw [hp1val]
      have : (0:ℝ) ≤ (((next_f32 st).1 : ℚ) : ℝ) := by exact_mod_cast hf0
      linarith
    have hsum0 : x ^ 2 + y ^ 2 + z ^ 2 + w ^ 2 = 1 := by
      have hexpand : x ^ 2 + y ^ 2 + z ^ 2 + w ^ 2 =
          inv ^ 2 * (Real.sin p2.1 ^ 2 + Real.cos p2.1 ^ 2) +
          sqrt1 ^ 2 * (Real.sin p3.1 ^ 2 + Real.cos p3.1 ^ 2) := by
        rw [hxdef, hydef, hzdef, hwdef]
        ring
      rw [hexpand, Real.sin_sq_add_cos_sq, Real.sin_sq_add_cos_sq, mul_one, mul_one,
        hinv, hsqrt1, Real.sq_sqrt (by linarith), Real.sq_sqrt hu0]
      ring
    rw [hdef]
    rcases lt_or_le w 0 with hw | hw
    · have hqval : q = (-x, -y, -z, -w) := by rw [hq, if_pos hw]
      rw [hqval]
      have hsumneg : (-x) ^ 2 + (-y) ^ 2 + (-z) ^ 2 + (-w) ^ 2 = 1 := by
        simp only [neg_sq]
        exact hsum0
      exact precision7_sq_sum_close (-x) (-y) (-z) (-w) hsumneg (by linarith)
    · have hqval : q = (x, y, z, w) := by rw [hq, if_neg (not_lt.mpr hw)]
      rw [hqval]
      exact precision7_sq_sum_close _ _ _ _ hsum0 hw

/-- Witness for draw_count_accounting at concrete inputs. -/
theorem draw_count_accounting_witness :
    (value (init_state 0)).2 = nextState (init_state 0) ∧
    (range_float 0 1 (init_state 0)).2 = nextState (init_state 0) ∧
    (range_int 0 10 (init_state 0)).2 =
      (if (0 : ℤ) = 10 then init_state 0 else nextState (init_state 0)) ∧
    (inside_unit_circle (init_state 0)).2 = nextState (nextState (init_state 0)) ∧
    (on_unit_sphere (init_state 0)).2 = nextState (nextState (init_state 0)) ∧
    (inside_unit_sphere (init_state 0)).2 =
      nextState (nextState (nextState (init_state 0))) ∧
    (rotation_uniform (init_state 0)).2 =
      nextState (nextState (nextState (init_state 0))) ∧
    (rotation (init_state 0)).2 =
      nextState (nextState (nextState (nextState (init_state 0)))) ∧
    (color_hsva 0 1 0 1 0 1 1 1 (init_state 0)).2 =
      nextState (nextState (nextState (nextState (init_state 0)))) ∧
    (color (init_state 0)).2 =
      nextState (nextState (nextState (nextState (init_state 0)))) ∧
    (color_h 0 1 (init_state 0)).2 =
      nextState (nextState (nextState (nextState (init_state 0)))) ∧
    (color_hs 0 1 0 1 (init_state 0)).2 =
      nextState (nextState (nextState (nextState (init_state 0)))) ∧
    (color_hsv 0 1 0 1 0 1 (init_state 0)).2 =
      nextState (nextState (nextState (nextState (init_state 0)))) :=
  draw_count_accounting (init_state 0) 0 1 0 10 0 1 0 1 0 1 1 1
    (by decide) (by decide) (by decide) (by decide)


section IdempotenceLemmas

variable {K : Type} [LinearOrderedField K] [FloorRing K]

omit [FloorRing K] in
theorem zpow10_add_eq (a b c : ℤ) (h : a + b = c) : (10:K) ^ a * 10 ^ b = 10 ^ c := by
  rw [← zpow_add₀ (by norm_num : (10:K) ≠ 0), h]

omit [FloorRing K] in
theorem zpow2_add_eq (a b c : ℤ) (h : a + b = c) : (2:K) ^ a * 2 ^ b = 2 ^ c := by
  rw [← zpow_add₀ (by norm_num : (2:K) ≠ 0), h]

theorem rne_intCast (n : ℤ) : Crypto.rne ((n : K)) = n := by
  unfold Crypto.rne
  rw [Int.floor_intCast]
  rw [if_pos (by norm_num : (n:K) - (n:K) < 1/2)]

theorem rne_eq_of_abs_lt (n : ℤ) (q : K) (h : |q - (n:K)| < 1/2) : Crypto.rne q = n := by
  rw [abs_lt] at h
  rcases le_or_lt (n:K) q with hge | hlt
  · have hf : ⌊q⌋ = n := Int.floor_eq_iff.mpr ⟨hge, by push_cast; linarith [h.2]⟩
    unfold Crypto.rne
    rw [hf, if_pos (by push_cast; linarith [h.2, hge])]
  · have hf : ⌊q⌋ = n - 1 := Int.floor_eq_iff.mpr ⟨by push_cast; linarith [h.1], by push_cast; linarith⟩
    unfold Crypto.rne
    rw [hf]
    rw [if_neg (by push_cast; linarith [h.1]), if_pos (by push_cast; linarith [h.1])]
    omega

theorem rne_half_even (n : ℤ) (q : K) (hf : q = (n:K) + 1/2) (he : n % 2 = 0) :
    Crypto.rne q = n := by
  have hfl : ⌊q⌋ = n := Int.floor_eq_iff.mpr ⟨by rw [hf]; push_cast; linarith,
    by rw [hf]; push_cast; linarith⟩
  unfold Crypto.rne
  rw [hfl, if_neg (by rw [hf]; push_cast; linarith), if_neg (by rw [hf]; push_cast; linarith),
    if_pos he]

theorem rne_half_odd (n : ℤ) (q : K) (hf : q = (n:K) + 1/2) (he : n % 2 = 1) :
    Crypto.rne q = n + 1 := by
  have hfl : ⌊q⌋ = n := Int.floor_eq_iff.mpr ⟨by rw [hf]; push_cast; linarith,
    by rw [hf]; push_cast; linarith⟩
  unfold Crypto.rne
  rw [hfl, if_neg (by rw [hf]; push_cast; linarith), if_neg (by rw [hf]; push_cast; linarith),
    if_neg (by omega)]

theorem roundAway_eq_of_abs_lt (n : ℤ) (q : K) (h : |q - (n:K)| < 1/2) :
    Crypto.roundAway q = n := by
  rw [abs_lt] at h
  unfold Crypto.roundAway
  split
  · exact Int.floor_eq_iff.mpr ⟨by push_cast; linarith [h.1], by push_cast; linarith [h.2]⟩
  · have : ⌊-q + 1/2⌋ = -n :=
      Int.floor_eq_iff.mpr ⟨by push_cast; linarith [h.2], by push_cast; linarith [h.1]⟩
    rw [this]
    omega

theorem roundAway_neg (q : K) : Crypto.roundAway (-q) = -Crypto.roundAway q := by
  rcases lt_trichotomy q 0 with h | h | h
  · unfold Crypto.roundAway
    rw [if_pos (by linarith : (0:K) ≤ -q), if_neg (not_le.mpr h), neg_neg]
  · simp only [h, neg_zero]
    unfold Crypto.roundAway
    rw [if_pos le_rfl]
    norm_num
  · unfold Crypto.roundAway
    rw [if_neg (not_le.mpr (by linarith : -q < 0)), if_pos h.le, neg_neg]

theorem intLog2_char (q : K) (d : ℤ) (h0 : 0 < q) (h1 : (2:K) ^ d ≤ q) (h2 : q < 2 ^ (d+1)) :
    intLog 2 q = d := by
  rw [intLog_eq]
  have hb : (1:ℕ) < 2 := by norm_num
  have hle : d ≤ Int.log 2 q := by
    rw [← Int.zpow_le_iff_le_log hb h0]
    exact_mod_cast h1
  have hlt : Int.log 2 q < d + 1 := by
    rw [← Int.lt_zpow_iff_log_lt hb h0]
    exact_mod_cast h2
  omega

theorem intClog10_char (q : K) (c : ℤ) (h0 : 0 < q) (h1 : (10:K) ^ (c-1) < q)
    (h2 : q ≤ 10 ^ c) : intClog 10 q = c := by
  rw [intClog_eq]
  have hb : (1:ℕ) < 10 := by norm_num
  have hle : Int.clog 10 q ≤ c := by
    rw [← Int.le_zpow_iff_clog_le hb h0]
    exact_mod_cast h2
  have hlt : c - 1 < Int.clog 10 q := by
    rw [← Int.zpow_lt_iff_lt_clog hb h0]
    exact_mod_cast h1
  omega

theorem intClog10_bounds (q : K) (h0 : 0 < q) :
    (10:K) ^ (intClog 10 q - 1) < q ∧ q ≤ 10 ^ intClog 10 q := by
  rw [intClog_eq]
  constructor
  · exact_mod_cast Int.zpow_pred_clog_lt_self (by norm_num : (1:ℕ) < 10) h0
  · exact_mod_cast Int.self_le_zpow_clog (by norm_num : (1:ℕ) < 10) q

theorem intClog2_bounds (q : K) (h0 : 0 < q) :
    (2:K) ^ (intClog 2 q - 1) < q ∧ q ≤ 2 ^ intClog 2 q := by
  rw [intClog_eq]
  constructor
  · exact_mod_cast Int.zpow_pred_clog_lt_self (by norm_num : (1:ℕ) < 2) h0
  · exact_mod_cast Int.self_le_zpow_clog (by norm_num : (1:ℕ) < 2) q

theorem intLog2_bounds (q : K) (h0 : 0 < q) :
    (2:K) ^ intLog 2 q ≤ q ∧ q < 2 ^ (intLog 2 q + 1) := by
  rw [intLog_eq]
  constructor
  · exact_mod_cast Int.zpow_log_le_self (by norm_num : (1:ℕ) < 2) h0
  · exact_mod_cast Int.lt_zpow_succ_log_self (by norm_num : (1:ℕ) < 2) q

/-- Values of the form `n * 2^j` with a `p`-bit significand are fixed points
of `fl p`. -/
theorem fl_fixed (p pm : ℕ) (hp : p = pm + 1) (n j : ℤ)
    (h1 : 2 ^ pm ≤ n) (h2 : n < 2 ^ (pm + 1)) :
    Crypto.fl p ((n : K) * 2 ^ j) = (n : K) * 2 ^ j := by
  have hnpos : (0:ℤ) < n := lt_of_lt_of_le (by positivity) h1
  have hnK : (0:K) < (n:K) := by exact_mod_cast hnpos
  have hq : (0:K) < (n:K) * 2 ^ j := by positivity
  have hcast1 : (2:K) ^ (pm:ℤ) ≤ (n:K) := by
    rw [zpow_natCast]
    exact_mod_cast h1
  have hcast2 : (n:K) < 2 ^ ((pm:ℤ) + 1) := by
    have : (n:K) < 2 ^ (pm + 1 : ℕ) := by exact_mod_cast h2
    rwa [← zpow_natCast (2:K) (pm + 1), Nat.cast_add, Nat.cast_one] at this
  have h2j : (0:K) < 2 ^ j := zpow_pos (by norm_num) _
  have hlog : intLog 2 ((n:K) * 2 ^ j) = (pm:ℤ) + j := by
    apply intLog2_char _ _ hq
    · have step1 : (2:K) ^ ((pm:ℤ) + j) = 2 ^ (pm:ℤ) * 2 ^ j := (zpow2_add_eq _ _ _ rfl).symm
      have step2 : (2:K) ^ (pm:ℤ) * 2 ^ j ≤ (n:K) * 2 ^ j :=
        mul_le_mul_of_nonneg_right hcast1 h2j.le
      linarith
    · have step1 : (n:K) * 2 ^ j < 2 ^ ((pm:ℤ) + 1) * 2 ^ j :=
        mul_lt_mul_of_pos_right hcast2 h2j
      have step2 : (2:K) ^ ((pm:ℤ) + 1) * 2 ^ j = 2 ^ ((pm:ℤ) + j + 1) :=
        zpow2_add_eq _ _ _ (by ring)
      linarith
  rw [fl_eq_of_pos p _ hq, hlog, hp]
  have hexp : (pm:ℤ) + j + 1 - (pm + 1 : ℕ) = j := by push_cast; ring
  rw [hexp]
  have hdiv : (n:K) * 2 ^ j / 2 ^ j = (n:K) := by
    field_simp
  rw [hdiv, rne_intCast]

theorem pow29_cancel : (536870912:K) * 2^(-(29:ℤ)) = 1 := by
  have h := zpow2_add_eq (K := K) 29 (-(29:ℤ)) 0 (by ring)
  rw [zpow_zero] at h
  rw [show (536870912:K) = 2^(29:ℤ) from by norm_num]
  exact h

theorem int_mul_pow29 (M : ℤ) : ((M * 2^29 : ℤ) : K) * 2^(-(29:ℤ)) = (M:K) := by
  push_cast
  rw [mul_assoc, pow29_cancel, mul_one]

theorem intLog2_of_mantissa (M : ℤ) (h1 : 2^23 ≤ M) (h2 : M < 2^24) :
    intLog 2 ((M:K)) = 23 := by
  have hq : (0:K) < (M:K) := by exact_mod_cast lt_of_lt_of_le (by norm_num) h1
  apply intLog2_char _ _ hq
  · rw [show ((23:ℤ)) = ((23:ℕ):ℤ) from by norm_num, zpow_natCast]
    exact_mod_cast h1
  · rw [show ((23:ℤ) + 1) = ((24:ℕ):ℤ) from by norm_num, zpow_natCast]
    exact_mod_cast h2

/-- A 24-bit mantissa value is a fixed point of `fl 24`. -/
theorem fl24_fixed_M (M : ℤ) (h1 : 2^23 ≤ M) (h2 : M < 2^24) :
    Crypto.fl 24 ((M:K)) = (M:K) := by
  have hq : (0:K) < (M:K) := by exact_mod_cast lt_of_lt_of_le (by norm_num) h1
  rw [fl_eq_of_pos 24 _ hq, intLog2_of_mantissa M h1 h2]
  have hexp : (23:ℤ) + 1 - (24:ℕ) = 0 := by norm_num
  simp only [hexp, zpow_zero, div_one, mul_one, rne_intCast]

/-- A 24-bit mantissa value is a fixed point of `fl 53`. -/
theorem fl53_fixed_M (M : ℤ) (h1 : 2^23 ≤ M) (h2 : M < 2^24) :
    Crypto.fl 53 ((M:K)) = (M:K) := by
  have hq : (0:K) < (M:K) := by exact_mod_cast lt_of_lt_of_le (by norm_num) h1
  rw [fl_eq_of_pos 53 _ hq, intLog2_of_mantissa M h1 h2]
  have hexp : (23:ℤ) + 1 - (53:ℕ) = -29 := by norm_num
  rw [hexp]
  have hdiv : (M:K) / 2^(-(29:ℤ)) = ((M * 2^29 : ℤ) : K) := by
    rw [zpow_neg, div_eq_mul_inv, inv_inv]
    push_cast
    norm_num
  rw [hdiv, rne_intCast, int_mul_pow29]

/-- Rounding criterion for `fl 24` at an interior mantissa: any value strictly
within half a grid step of `M * 2^t` rounds to it. -/
theorem fl24_round_interior (M t : ℤ) (q : K) (hM1 : 2 ^ 23 < M) (hM2 : M < 2 ^ 24)
    (h : |q - (M:K) * 2 ^ t| < 2 ^ (t-1)) : Crypto.fl 24 q = (M:K) * 2 ^ t := by
  have hT : (0:K) < 2 ^ t := zpow_pos (by norm_num) _
  have hT1 : (2:K) ^ (t-1) * 2 = 2 ^ t := by
    have h := zpow2_add_eq (K := K) (t-1) 1 t (by ring)
    rwa [zpow_one] at h
  have hM1K : (2:K) ^ (23:ℕ) + 1 ≤ (M:K) := by exact_mod_cast hM1
  have hM2K : (M:K) ≤ 2 ^ (24:ℕ) - 1 := by
    have : (M:K) + 1 ≤ 2 ^ (24:ℕ) := by exact_mod_cast hM2
    linarith
  rw [abs_lt] at h
  have hqpos : (0:K) < q := by nlinarith [hT, h.1]
  have h23 : (2:K) ^ ((23:ℤ) + t) = 2 ^ (23:ℕ) * 2 ^ t := by
    rw [← zpow_natCast (2:K) 23]
    exact (zpow2_add_eq _ _ _ rfl).symm
  have h24 : (2:K) ^ ((23:ℤ) + t + 1) = 2 ^ (24:ℕ) * 2 ^ t := by
    rw [← zpow_natCast (2:K) 24]
    exact (zpow2_add_eq _ _ _ (by push_cast; ring)).symm
  have hlog : intLog 2 q = 23 + t := by
    apply intLog2_char _ _ hqpos
    · rw [h23]
      nlinarith [h.1, hT]
    · rw [h24]
      nlinarith [h.2, hT]
  rw [fl_eq_of_pos 24 q hqpos, hlog]
  have hexp : (23:ℤ) + t + 1 - (24:ℕ) = t := by push_cast; ring
  rw [hexp]
  have hrne : Crypto.rne (q / 2 ^ t) = M := by
    apply rne_eq_of_abs_lt
    have hdiv : q / 2 ^ t - (M:K) = (q - (M:K) * 2 ^ t) / 2 ^ t := by
      field_simp
      ring
    rw [hdiv, abs_div, abs_of_pos hT, div_lt_iff hT, abs_lt]
    constructor <;> linarith [h.1, h.2]
  rw [hrne]

/-- Rounding criterion for `fl 24` at the bottom of a binade:
`[y - 2^(t-2), y + 2^(t-1)]` rounds to `y = 2^(t+23)` (ties included: both
endpoints round toward the even mantissa `2^23`). -/
theorem fl24_round_bottom (t : ℤ) (q : K)
    (h1 : (2:K) ^ (t+23) - 2 ^ (t-2) ≤ q) (h2 : q ≤ (2:K) ^ (t+23) + 2 ^ (t-1)) :
    Crypto.fl 24 q = 2 ^ (t+23) := by
  have hT : (0:K) < 2 ^ t := zpow_pos (by norm_num) _
  have hT1 : (2:K) ^ (t-1) * 2 = 2 ^ t := by
    have h := zpow2_add_eq (K := K) (t-1) 1 t (by ring)
    rwa [zpow_one] at h
  have hT2 : (2:K) ^ (t-2) * 2 = 2 ^ (t-1) := by
    have h := zpow2_add_eq (K := K) (t-2) 1 (t-1) (by ring)
    rwa [zpow_one] at h
  have hTB : (2:K) ^ (t+23) = 2 ^ (23:ℕ) * 2 ^ t := by
    rw [← zpow_natCast (2:K) 23]; exact (zpow2_add_eq _ _ _ (by ring)).symm
  have hT1pos : (0:K) < 2 ^ (t-1) := zpow_pos (by norm_num) _
  have hT2pos : (0:K) < 2 ^ (t-2) := zpow_pos (by norm_num) _
  have hTBpos : (0:K) < 2 ^ (t+23) := zpow_pos (by norm_num) _
  have hqpos : (0:K) < q := by
    have : (2:K) ^ (t-2) ≤ 2 ^ (t+23) := by nlinarith [hTB, hT1, hT2, hT]
    nlinarith
  rcases le_or_lt ((2:K) ^ (t+23)) q with hge | hlt
  · -- q in the binade of 2^(t+23): grid 2^t
    have hlog : intLog 2 q = t + 23 := by
      apply intLog2_char _ _ hqpos
      · exact hge
      · have h24 : (2:K) ^ (t + 23 + 1) = 2 ^ (24:ℕ) * 2 ^ t := by
          rw [← zpow_natCast (2:K) 24]
          exact (zpow2_add_eq _ _ _ (by push_cast; ring)).symm
        rw [h24]
        rw [hTB] at h2
        nlinarith
    rw [fl_eq_of_pos 24 q hqpos, hlog]
    have hexp : t + 23 + 1 - (24:ℕ) = t := by push_cast; ring
    rw [hexp]
    have hμ1 : (2:K) ^ (23:ℕ) ≤ q / 2 ^ t := by
      rw [le_div_iff hT, ← hTB]; exact hge
    have hμ2 : q / 2 ^ t ≤ 2 ^ (23:ℕ) + 1/2 := by
      rw [div_le_iff hT]
      rw [hTB] at h2
      nlinarith
    rcases lt_or_eq_of_le hμ2 with hμlt | hμeq
    · have hrne : Crypto.rne (q / 2 ^ t) = 2 ^ 23 := by
        apply rne_eq_of_abs_lt
        rw [abs_lt]
        push_cast
        constructor <;> linarith
      rw [hrne, hTB]
      norm_num
    · have hrne : Crypto.rne (q / 2 ^ t) = 2 ^ 23 := by
        apply rne_half_even (2^23) _ (by push_cast; linarith) (by decide)
      rw [hrne, hTB]
      norm_num
  · -- q below 2^(t+23): binade below, grid 2^(t-1)
    have hlog : intLog 2 q = t + 22 := by
      apply intLog2_char _ _ hqpos
      · have h22 : (2:K) ^ (t + 22) * 2 * 2 = 2 ^ (t + 23) * 2 := by
          have ha := zpow2_add_eq (K := K) (t+22) 1 (t+23) (by ring)
          rw [zpow_one] at ha
          rw [ha]
        have h22' : (2:K) ^ (t + 22) * 2 = 2 ^ (t+23) := by
          have ha := zpow2_add_eq (K := K) (t+22) 1 (t+23) (by ring)
          rwa [zpow_one] at ha
        nlinarith [h22', hT2, hT1]
      · rw [show t + 22 + 1 = t + 23 by ring]
        exact hlt
    rw [fl_eq_of_pos 24 q hqpos, hlog]
    have hexp : t + 22 + 1 - (24:ℕ) = t - 1 := by push_cast; ring
    rw [hexp]
    have hTB' : (2:K) ^ (t+23) = 2 ^ (24:ℕ) * 2 ^ (t-1) := by
      rw [← zpow_natCast (2:K) 24]
      exact (zpow2_add_eq _ _ _ (by push_cast; ring)).symm
    have hμ1 : (2:K) ^ (24:ℕ) - 1/2 ≤ q / 2 ^ (t-1) := by
      rw [le_div_iff hT1pos]
      rw [hTB'] at h1
      nlinarith [hT2]
    have hμ2 : q / 2 ^ (t-1) < 2 ^ (24:ℕ) := by
      rw [div_lt_iff hT1pos]
      rw [hTB'] at hlt
      nlinarith
    rcases lt_or_eq_of_le hμ1 with hμlt | hμeq
    · have hrne : Crypto.rne (q / 2 ^ (t-1)) = 2 ^ 24 := by
        apply rne_eq_of_abs_lt
        rw [abs_lt]
        push_cast
        constructor <;> linarith
      rw [hrne, hTB']
      push_cast
      ring
    · have hrne : Crypto.rne (q / 2 ^ (t-1)) = 2 ^ 24 - 1 + 1 := by
        apply rne_half_odd (2^24 - 1) _ (by push_cast; linarith) (by decide)
      rw [hrne, hTB']
      push_cast
      ring

/-- Every positive value rounds under `fl 24` to a normalized `M * 2^t` with
`2^23 ≤ M < 2^24`; the preimage lies within half a grid step, and within a
quarter step below when `M` sits at the bottom of its binade. -/
theorem fl24_preimage (w : K) (hw : 0 < w) :
    ∃ M t : ℤ, Crypto.fl 24 w = (M:K) * 2 ^ t ∧ 2 ^ 23 ≤ M ∧ M < 2 ^ 24 ∧
      |w - (M:K) * 2 ^ t| ≤ 2 ^ (t-1) ∧
      (M = 2 ^ 23 → (M:K) * 2 ^ t - 2 ^ (t-2) ≤ w) := by
  set d : ℤ := intLog 2 w with hd
  obtain ⟨hd1, hd2⟩ := intLog2_bounds w hw
  rw [← hd] at hd1 hd2
  set e : ℤ := d + 1 - 24 with he
  have hfl : Crypto.fl 24 w = (Crypto.rne (w / 2 ^ e) : K) * 2 ^ e := by
    rw [fl_eq_of_pos 24 w hw]
    norm_num [he, hd]
  have hE : (0:K) < 2 ^ e := zpow_pos (by norm_num) _
  set μ : K := w / 2 ^ e with hμ
  have hμ1 : (2:K) ^ (23:ℕ) ≤ μ := by
    rw [hμ, le_div_iff hE]
    calc (2:K) ^ (23:ℕ) * 2 ^ e = 2 ^ d := by
          rw [← zpow_natCast (2:K) 23]; exact zpow2_add_eq _ _ _ (by rw [he]; push_cast; ring)
      _ ≤ w := hd1
  have hμ2 : μ < 2 ^ (24:ℕ) := by
    rw [hμ, div_lt_iff hE]
    calc w < 2 ^ (d+1) := hd2
      _ = 2 ^ (24:ℕ) * 2 ^ e := by
          rw [← zpow_natCast (2:K) 24]; exact (zpow2_add_eq _ _ _ (by rw [he]; push_cast; ring)).symm
  set m : ℤ := Crypto.rne μ with hm
  have herr : |(m:K) - μ| ≤ 1/2 := rne_abs_sub_le μ
  have hm1 : 2 ^ 23 ≤ m := by
    have hfl23 : (2:ℤ) ^ 23 ≤ ⌊μ⌋ := Int.le_floor.mpr (by push_cast; exact_mod_cast hμ1)
    rcases rne_eq_floor_or μ with h | h <;> omega
  have hm2 : m ≤ 2 ^ 24 := by
    have hfl24 : ⌊μ⌋ < 2 ^ 24 := Int.floor_lt.mpr (by exact_mod_cast hμ2)
    rcases rne_eq_floor_or μ with h | h <;> omega
  have hwμ : w = μ * 2 ^ e := by rw [hμ]; field_simp
  have habs : |w - (m:K) * 2 ^ e| ≤ 1/2 * 2 ^ e := by
    have hrw : |w - (m:K) * 2 ^ e| = |(m:K) - μ| * 2 ^ e := by
      rw [hwμ, ← abs_of_pos hE, ← abs_mul, abs_of_pos hE, ← abs_neg]
      congr 1
      ring
    rw [hrw]
    exact mul_le_mul_of_nonneg_right herr hE.le
  have hEhalf : (2:K) ^ (e-1) * 2 = 2 ^ e := by
    have h := zpow2_add_eq (K := K) (e-1) 1 e (by ring)
    rwa [zpow_one] at h
  have hE2 : (2:K) ^ (e+1) = 2 ^ e * 2 := by
    have h := zpow2_add_eq (K := K) e 1 (e+1) rfl
    rw [← h, zpow_one]
  rcases lt_or_eq_of_le hm2 with hmlt | hmeq
  · refine ⟨m, e, hfl, hm1, hmlt, ?_, ?_⟩
    · calc |w - (m:K) * 2 ^ e| ≤ 1/2 * 2 ^ e := habs
        _ = 2 ^ (e-1) := by linarith
    · intro hm23
      have hμm : (m:K) ≤ μ := by
        rw [hm23]
        push_cast
        exact_mod_cast hμ1
      have hwge : (m:K) * 2 ^ e ≤ w := by
        rw [hwμ]
        exact mul_le_mul_of_nonneg_right hμm hE.le
      have hpos2 : (0:K) < 2 ^ (e-2) := zpow_pos (by norm_num) _
      linarith
  · have hy24 : ((2^23 : ℤ) : K) * 2 ^ (e+1) = (m:K) * 2 ^ e := by
      rw [hmeq, hE2]
      push_cast
      ring
    refine ⟨2^23, e + 1, ?_, le_rfl, by norm_num, ?_, ?_⟩
    · rw [hfl, hy24]
    · rw [hy24]
      have hEq : (2:K) ^ (e + 1 - 1) = 2 ^ e := by congr 1; ring
      rw [hEq]
      calc |w - (m:K) * 2 ^ e| ≤ 1/2 * 2 ^ e := habs
        _ ≤ 2 ^ e := by linarith
    · intro _
      have hμm : (2:K) ^ (24:ℕ) - 1/2 ≤ μ := by
        have hh : (m:K) - μ ≤ 1/2 := (abs_le.mp herr).2
        rw [hmeq] at hh
        push_cast at hh
        linarith
      have hq2 : (2:K) ^ (e + 1 - 2) = 2 ^ (e-1) := by congr 1; ring
      rw [hy24, hq2, hwμ, hmeq]
      push_cast
      have hstep : ((2:K) ^ (24:ℕ) - 1/2) * 2 ^ e ≤ μ * 2 ^ e :=
        mul_le_mul_of_nonneg_right hμm hE.le
      nlinarith [hstep, hEhalf]

end IdempotenceLemmas

/-- The `f32` images of the powers of ten are fixed points of
`precision_f32 · 7` (checked decade by decade over the range reachable from
inputs with `|x|` between `10^-40` and `10^40`). -/
theorem power_of_ten_fixed :
    ∀ c ∈ Finset.Icc (-(42:ℤ)) 42,
      Crypto.precision_f32 (Crypto.fl 24 (Crypto.fl 53 ((10:ℚ)^c))) 7
        = Crypto.fl 24 (Crypto.fl 53 ((10:ℚ)^c)) := by decide

set_option maxHeartbeats 4000000 in
/-- Grid facts for the second rounding pass, enumerated over the decimal
shift `s` and the offset `u` of the binade exponent relative to
`-clog 2 (10^s)`: for every pair whose grid ratio `G = 2^t * 10^s` lies in
the reachable window, either the pair is the exact case `(0,0)`, or `G` is
bounded away from `1` on the fine side, or `G` is coarse and the fractional
position of `2^(t+23) * 10^s` avoids the critical zone. -/
theorem grid_safety :
    ∀ s ∈ Finset.Icc (-(36:ℤ)) 50, ∀ u ∈ Finset.Icc (-(4:ℤ)) 1,
      1/20 < (2:ℚ)^(u - intClog 2 ((10:ℚ)^s)) * 10^s →
      (2:ℚ)^(u - intClog 2 ((10:ℚ)^s)) * 10^s < 6/5 →
      ((s = 0 ∧ u - intClog 2 ((10:ℚ)^s) = 0) ∨
        (2:ℚ)^(u - intClog 2 ((10:ℚ)^s)) * 10^s ≤ 1 - 1/2^10 ∨
        (1 + 1/2^10 ≤ (2:ℚ)^(u - intClog 2 ((10:ℚ)^s)) * 10^s ∧
          ((2:ℚ)^(u - intClog 2 ((10:ℚ)^s)+23) * 10^s -
              ⌊(2:ℚ)^(u - intClog 2 ((10:ℚ)^s)+23) * 10^s⌋ ≤
              ((2:ℚ)^(u - intClog 2 ((10:ℚ)^s)) * 10^s)/4 - 1/2^27 ∨
           1/2 + 1/2^28 ≤ (2:ℚ)^(u - intClog 2 ((10:ℚ)^s)+23) * 10^s -
              ⌊(2:ℚ)^(u - intClog 2 ((10:ℚ)^s)+23) * 10^s⌋ ∨
           (2:ℚ)^(u - intClog 2 ((10:ℚ)^s)+23) * 10^s -
              ⌊(2:ℚ)^(u - intClog 2 ((10:ℚ)^s)+23) * 10^s⌋ ≤
             1 - ((2:ℚ)^(u - intClog 2 ((10:ℚ)^s)) * 10^s)/2 - 1/2^24))) := by decide

/-- `grid_safety` transported to an arbitrary binade exponent `t`: the grid
window forces `t` to lie within the enumerated offsets of `-clog 2 (10^s)`. -/
theorem grid_safety_at (s t : ℤ) (hs1 : -36 ≤ s) (hs2 : s ≤ 50)
    (hw1 : 1/20 < (2:ℚ)^t * 10^s) (hw2 : (2:ℚ)^t * 10^s < 6/5) :
    ((s = 0 ∧ t = 0) ∨
      (2:ℚ)^t * 10^s ≤ 1 - 1/2^10 ∨
      (1 + 1/2^10 ≤ (2:ℚ)^t * 10^s ∧
        ((2:ℚ)^(t+23) * 10^s - ⌊(2:ℚ)^(t+23) * 10^s⌋ ≤ ((2:ℚ)^t * 10^s)/4 - 1/2^27 ∨
         1/2 + 1/2^28 ≤ (2:ℚ)^(t+23) * 10^s - ⌊(2:ℚ)^(t+23) * 10^s⌋ ∨
         (2:ℚ)^(t+23) * 10^s - ⌊(2:ℚ)^(t+23) * 10^s⌋ ≤
           1 - ((2:ℚ)^t * 10^s)/2 - 1/2^24))) := by
  set C : ℤ := intClog 2 ((10:ℚ)^s) with hCdef
  have hSpos : (0:ℚ) < 10^s := zpow_pos (by norm_num) _
  obtain ⟨hC1, hC2⟩ := intClog2_bounds ((10:ℚ)^s) hSpos
  rw [← hCdef] at hC1 hC2
  have h2t : (0:ℚ) < 2^t := zpow_pos (by norm_num) _
  have hu1 : -4 ≤ t + C := by
    by_contra hcon
    push_neg at hcon
    have htC : t + C ≤ -5 := by omega
    have hle : (2:ℚ)^(t+C) ≤ 2^(-(5:ℤ)) := by
      have := zpow_le_zpow_right₀ (by norm_num : (1:ℚ) ≤ 2) htC
      exact this
    have hprod : (2:ℚ)^t * 10^s ≤ 2^t * 2^C :=
      mul_le_mul_of_nonneg_left hC2 h2t.le
    rw [zpow2_add_eq t C (t+C) rfl] at hprod
    have hchain : (2:ℚ)^t * 10^s ≤ 2^(-(5:ℤ)) := le_trans hprod hle
    have hnum : (2:ℚ)^(-(5:ℤ)) < 1/20 := by
      rw [zpow_neg, show ((5:ℤ)) = ((5:ℕ):ℤ) from rfl, zpow_natCast]
      norm_num
    exact absurd (lt_of_lt_of_le hw1 hchain) (not_lt.mpr hnum.le)
  have hu2 : t + C ≤ 1 := by
    by_contra hcon
    push_neg at hcon
    have htC : 2 ≤ t + C := by omega
    have hge : (2:ℚ)^(2:ℤ) ≤ 2^(t+C) :=
      zpow_le_zpow_right₀ (by norm_num : (1:ℚ) ≤ 2) htC
    have hprod : (2:ℚ)^t * 2^(C-1) < 2^t * 10^s :=
      mul_lt_mul_of_pos_left hC1 h2t
    rw [zpow2_add_eq t (C-1) (t+C-1) (by ring)] at hprod
    have hhalf : (2:ℚ)^(t+C-1) * 2 = 2^(t+C) := by
      have h := zpow2_add_eq (K := ℚ) (t+C-1) 1 (t+C) (by ring)
      rwa [zpow_one] at h
    have h4 : (2:ℚ)^(2:ℤ) = 4 := by
      rw [show ((2:ℤ)) = ((2:ℕ):ℤ) from rfl, zpow_natCast]
      norm_num
    rw [h4] at hge
    -- 2^(t+C-1) ≥ 2, but 2^(t+C-1) < 2^t * 10^s < 6/5: contradiction
    have hg2 : (2:ℚ) ≤ 2^(t+C-1) := by linarith
    have hlt : (2:ℚ)^(t+C-1) < 6/5 := lt_trans hprod hw2
    linarith
  have hmem1 : s ∈ Finset.Icc (-(36:ℤ)) 50 := Finset.mem_Icc.mpr ⟨hs1, hs2⟩
  have hmem2 : t + C ∈ Finset.Icc (-(4:ℤ)) 1 := Finset.mem_Icc.mpr ⟨hu1, hu2⟩
  have hres := grid_safety s hmem1 (t + C) hmem2
  rw [← hCdef] at hres
  rw [show t + C - C = t from by ring] at hres
  exact hres hw1 hw2

set_option maxHeartbeats 3200000 in
/-- Core fixed-point property: the `f32` image of any `k / 10^(7-c)` with a
seven-digit integer significand `k` is a fixed point of `precision_f32 · 7`. -/
theorem precision7_image_fixed (k c : ℤ) (hk1 : 10^6 ≤ k) (hk2 : k ≤ 10^7)
    (hc1 : -41 ≤ c) (hc2 : c ≤ 41) :
    Crypto.precision_f32 (Crypto.fl 24 (Crypto.fl 53 ((k:ℚ) / 10^((7:ℤ)-c)))) 7
      = Crypto.fl 24 (Crypto.fl 53 ((k:ℚ) / 10^((7:ℤ)-c))) := by
  set S : ℚ := 10^((7:ℤ)-c) with hS
  have hSpos : (0:ℚ) < S := zpow_pos (by norm_num) _
  set z : ℚ := (k:ℚ) / S with hzdef
  set z1 : ℚ := Crypto.fl 53 z with hz1def
  set y : ℚ := Crypto.fl 24 z1 with hydef
  have hkQ1 : (1000000:ℚ) ≤ (k:ℚ) := by exact_mod_cast hk1
  have hkQ2 : (k:ℚ) ≤ 10000000 := by exact_mod_cast hk2
  have hkpos : (0:ℚ) < (k:ℚ) := by linarith
  have hzpos : 0 < z := by rw [hzdef]; positivity
  have hzS : z * S = (k:ℚ) := by rw [hzdef]; field_simp
  have hz1err : |z1 - z| ≤ z / 2^53 := by
    have h := fl_abs_sub_le 53 z
    rwa [abs_of_pos hzpos] at h
  have hz1small : z / 2^53 < z := div_lt_self hzpos (by norm_num)
  have hz1pos : 0 < z1 := by
    have h := (abs_le.mp hz1err).1
    linarith
  have hyerr : |y - z1| ≤ z1 / 2^24 := by
    have h := fl_abs_sub_le 24 z1
    rwa [abs_of_pos hz1pos] at h
  have hysmall : z1 / 2^24 < z1 := div_lt_self hz1pos (by norm_num)
  have hypos : 0 < y := by
    have h := (abs_le.mp hyerr).1
    linarith
  clear_value S z z1 y
  -- decade bounds for z
  have hS6 : (10:ℚ)^((c:ℤ)-1) * S = 1000000 := by
    rw [hS, zpow10_add_eq (c-1) (7-c) 6 (by ring)]
    norm_num
  have hS7 : (10:ℚ)^(c:ℤ) * S = 10000000 := by
    rw [hS, zpow10_add_eq c (7-c) 7 (by ring)]
    norm_num
  have hz_lo : (10:ℚ)^((c:ℤ)-1) ≤ z := by
    have h : (10:ℚ)^((c:ℤ)-1) * S ≤ z * S := by rw [hS6, hzS]; exact hkQ1
    exact le_of_mul_le_mul_right h hSpos
  have hz_hi : z ≤ (10:ℚ)^(c:ℤ) := by
    have h : z * S ≤ (10:ℚ)^(c:ℤ) * S := by rw [hS7, hzS]; exact hkQ2
    exact le_of_mul_le_mul_right h hSpos
  -- decade pin for y
  have hXpos : (0:ℚ) < 10^(c:ℤ) := zpow_pos (by norm_num) _
  have hX10 : (10:ℚ)^(c+1) = 10^(c:ℤ) * 10 := by
    have h := zpow10_add_eq (K := ℚ) c 1 (c+1) rfl
    rw [zpow_one] at h
    exact h.symm
  have hXm : (10:ℚ)^((c:ℤ)-1) * 10 = 10^(c:ℤ) := by
    have h := zpow10_add_eq (K := ℚ) (c-1) 1 c (by ring)
    rwa [zpow_one] at h
  have hXm2 : (10:ℚ)^((c:ℤ)-2) * 100 = 10^(c:ℤ) := by
    have h := zpow10_add_eq (K := ℚ) (c-2) 2 c (by ring)
    rw [show ((10:ℚ)^(2:ℤ)) = 100 by norm_num] at h
    exact h
  have hy_hi1 : y < 10^(c+1) := by
    rw [hX10]
    have h1 := (abs_le.mp hyerr).2
    have h2 := (abs_le.mp hz1err).2
    linarith
  have hy_lo1 : (10:ℚ)^((c:ℤ)-2) < y := by
    have h1 := (abs_le.mp hyerr).1
    have h2 := (abs_le.mp hz1err).1
    have hzc : (10:ℚ)^((c:ℤ)-2) * 10 ≤ z := by
      have : (10:ℚ)^((c:ℤ)-2) * 10 ≤ 10^((c:ℤ)-1) := by
        have h := zpow10_add_eq (K := ℚ) (c-2) 1 (c-1) (by ring)
        rw [zpow_one] at h
        linarith
      linarith
    have hp2 : (0:ℚ) < 10^((c:ℤ)-2) := zpow_pos (by norm_num) _
    linarith
  set c2 : ℤ := intClog 10 y with hc2def
  obtain ⟨hyb1, hyb2⟩ := intClog10_bounds y hypos
  rw [← hc2def] at hyb1 hyb2
  clear_value c2
  have hc2_le : c2 ≤ c + 1 := by
    by_contra hcon
    push_neg at hcon
    have h : c + 1 ≤ c2 - 1 := by omega
    have hmono : (10:ℚ)^(c+1) ≤ 10^(c2-1) :=
      zpow_le_zpow_right₀ (by norm_num : (1:ℚ) ≤ 10) h
    linarith
  have hc2_ge : c - 1 ≤ c2 := by
    by_contra hcon
    push_neg at hcon
    have h : c2 ≤ c - 2 := by omega
    have hmono : (10:ℚ)^(c2:ℤ) ≤ 10^((c:ℤ)-2) :=
      zpow_le_zpow_right₀ (by norm_num : (1:ℚ) ≤ 10) h
    linarith
  have hPy : Crypto.precision_f32 y 7 =
      Crypto.fl 24 (Crypto.fl 53
        ((Crypto.roundAway (Crypto.fl 53 (y * 10 ^ ((7:ℤ) - c2))) : ℚ) /
          10 ^ ((7:ℤ) - c2))) := by
    rw [precision7_eq y hypos.ne']
    rw [abs_of_pos hypos, ← hc2def]
  -- global bracket of y * S against k
  have hyzC_lo : (1 - 1/2^53) * (1 - 1/2^24) * z ≤ y := by
    have h1 := (abs_le.mp hyerr).1
    have h2 := (abs_le.mp hz1err).1
    nlinarith [hz1pos, hzpos]
  have hyzC_hi : y ≤ (1 + 1/2^53) * (1 + 1/2^24) * z := by
    have h1 := (abs_le.mp hyerr).2
    have h2 := (abs_le.mp hz1err).2
    nlinarith [hz1pos, hzpos]
  have hY_lo : (1 - 1/2^53) * (1 - 1/2^24) * (k:ℚ) ≤ y * S := by
    have h := mul_le_mul_of_nonneg_right hyzC_lo hSpos.le
    calc (1 - 1/2^53) * (1 - 1/2^24) * (k:ℚ)
        = (1 - 1/2^53) * (1 - 1/2^24) * (z * S) := by rw [hzS]
      _ = (1 - 1/2^53) * (1 - 1/2^24) * z * S := by ring
      _ ≤ y * S := h
  have hY_hi : y * S ≤ (1 + 1/2^53) * (1 + 1/2^24) * (k:ℚ) := by
    have h := mul_le_mul_of_nonneg_right hyzC_hi hSpos.le
    calc y * S ≤ (1 + 1/2^53) * (1 + 1/2^24) * z * S := h
      _ = (1 + 1/2^53) * (1 + 1/2^24) * (z * S) := by ring
      _ = (1 + 1/2^53) * (1 + 1/2^24) * (k:ℚ) := by rw [hzS]
  rcases (show c2 = c - 1 ∨ c2 = c ∨ c2 = c + 1 by omega) with hcc | hcc | hcc
  · -- c2 = c - 1: the result rounded down onto the decade boundary, k = 10^6
    rw [hcc] at hyb2
    have hyS_le : y * S ≤ 1000000 := by
      have h := mul_le_mul_of_nonneg_right hyb2 hSpos.le
      rwa [hS6] at h
    have hk6 : k = 10^6 := by
      by_contra hne
      have hk1' : 10^6 + 1 ≤ k := by omega
      have hcast : (1000001:ℚ) ≤ (k:ℚ) := by exact_mod_cast hk1'
      linarith [hY_lo, hyS_le, hcast]
    have hz10 : z = (10:ℚ)^((c:ℤ)-1) := by
      rw [hzdef, hk6, div_eq_iff hSpos.ne']
      push_cast
      rw [hS6]
    rw [hydef, hz1def, hz10]
    exact power_of_ten_fixed (c-1) (Finset.mem_Icc.mpr ⟨by omega, by omega⟩)
  · -- c2 = c: the main case
    rw [hcc] at hPy hyb1 hyb2
    rw [← hS] at hPy
    -- normalized form of y
    obtain ⟨M, t, hyMtraw, hM1, hM2, hprox, hbot⟩ := fl24_preimage z1 hz1pos
    have hyMt : y = (M:ℚ) * 2^t := by rw [hydef]; exact hyMtraw
    have hMQ1 : (8388608:ℚ) ≤ (M:ℚ) := by exact_mod_cast hM1
    have hMQ2 : (M:ℚ) < 16777216 := by exact_mod_cast hM2
    have hTpos : (0:ℚ) < 2^t := zpow_pos (by norm_num) _
    have hThalf : (2:ℚ)^(t-1) * 2 = 2^t := by
      have h := zpow2_add_eq (K := ℚ) (t-1) 1 t (by ring)
      rwa [zpow_one] at h
    have hTq : (2:ℚ)^(t-2) * 2 = 2^(t-1) := by
      have h := zpow2_add_eq (K := ℚ) (t-2) 1 (t-1) (by ring)
      rwa [zpow_one] at h
    -- window for Y = y * S
    have hYlo : 1000000 < y * S := by
      have h := mul_lt_mul_of_pos_right hyb1 hSpos
      rwa [hS6] at h
    have hYhi : y * S ≤ 10000000 := by
      have h := mul_le_mul_of_nonneg_right hyb2 hSpos.le
      rwa [hS7] at h
    have hYpos : (0:ℚ) < y * S := by positivity
    -- grid ratio window
    have hGM : (2:ℚ)^t * 10^((7:ℤ)-c) * (M:ℚ) = y * S := by
      rw [← hS, hyMt]
      ring
    have hGpos : (0:ℚ) < (2:ℚ)^t * 10^((7:ℤ)-c) := by positivity
    have hG_lo : 1/20 < (2:ℚ)^t * 10^((7:ℤ)-c) := by
      have h1 : (2:ℚ)^t * 10^((7:ℤ)-c) * (M:ℚ) ≤
          (2:ℚ)^t * 10^((7:ℤ)-c) * 16777216 :=
        mul_le_mul_of_nonneg_left hMQ2.le hGpos.le
      rw [hGM] at h1
      linarith
    have hG_hi : (2:ℚ)^t * 10^((7:ℤ)-c) < 6/5 := by
      have h1 : (2:ℚ)^t * 10^((7:ℤ)-c) * 8388608 ≤
          (2:ℚ)^t * 10^((7:ℤ)-c) * (M:ℚ) :=
        mul_le_mul_of_nonneg_left hMQ1 hGpos.le
      rw [hGM] at h1
      linarith
    have hsafe := grid_safety_at ((7:ℤ)-c) t (by omega) (by omega) hG_lo hG_hi
    rw [← hS] at hsafe
    -- fl53 and roundAway of Y
    set Y1 : ℚ := Crypto.fl 53 (y * S) with hY1def
    set k' : ℤ := Crypto.roundAway Y1 with hkpdef
    clear_value Y1
    clear_value k'
    have hY1e : |Y1 - y * S| ≤ 1/2^29 := by
      have h := fl_abs_sub_le 53 (y * S)
      rw [abs_of_pos hYpos, ← hY1def] at h
      have h2 : (y * S)/2^53 ≤ 1/2^29 := by linarith
      linarith
    have hk'e : |(k':ℚ) - Y1| ≤ 1/2 := by
      rw [hkpdef]
      exact roundAway_abs_sub_le Y1
    have hk'Y : |(k':ℚ) - y * S| ≤ 1/2 + 1/2^29 := by
      have h := abs_sub_le ((k':ℚ)) Y1 (y * S)
      have h1 := (abs_le.mp hY1e).1
      have h2 := (abs_le.mp hY1e).2
      have h3 := (abs_le.mp hk'e).1
      have h4 := (abs_le.mp hk'e).2
      rw [abs_le]
      constructor <;> linarith
    have hk'Q1 : (999999:ℚ) ≤ (k':ℚ) := by
      have h := (abs_le.mp hk'Y).1
      linarith
    have hk'Q2 : (k':ℚ) ≤ 10000001 := by
      have h := (abs_le.mp hk'Y).2
      linarith
    have hz'S : ((k':ℚ)/S) * S = (k':ℚ) := by field_simp
    have hz'pos : (0:ℚ) < (k':ℚ)/S := by
      apply div_pos (by linarith) hSpos
    have hz1'e : |Crypto.fl 53 ((k':ℚ)/S) - (k':ℚ)/S| ≤ ((k':ℚ)/S) / 2^53 := by
      have h := fl_abs_sub_le 53 ((k':ℚ)/S)
      rwa [abs_of_pos hz'pos] at h
    have hz1'eS : |Crypto.fl 53 ((k':ℚ)/S) - (k':ℚ)/S| * S ≤ 1/2^29 := by
      have h := mul_le_mul_of_nonneg_right hz1'e hSpos.le
      have h2 : ((k':ℚ)/S) / 2^53 * S = (k':ℚ)/2^53 := by
        field_simp
        ring
      rw [h2] at h
      linarith
    have habs_scale : ∀ a b : ℚ, |a - b| * S = |a * S - b * S| := by
      intro a b
      rw [← abs_of_pos hSpos, ← abs_mul]
      rw [abs_of_pos hSpos, ← abs_of_pos hSpos]
      congr 1
      ring
    -- upper deviation of k from y * S (uses the preimage half-grid bound)
    have hkY : |(k:ℚ) - y * S| ≤ (2:ℚ)^t * S / 2 + 1/2^29 := by
      have htri : |z - y| ≤ |z - z1| + |z1 - y| := abs_sub_le z z1 y
      have hzy : |z - y| ≤ 2^(t-1) + z/2^53 := by
        have h1 : |z - z1| = |z1 - z| := abs_sub_comm z z1
        have h2 : |z1 - y| = |z1 - (M:ℚ) * 2^t| := by rw [hyMt]
        rw [h1, h2] at htri
        linarith [hprox]
      have hscale := mul_le_mul_of_nonneg_right hzy hSpos.le
      rw [habs_scale z y] at hscale
      rw [hzS] at hscale
      have hexp : ((2:ℚ)^(t-1) + z/2^53) * S = 2^(t-1) * S + (k:ℚ)/2^53 := by
        rw [add_mul]
        congr 1
        rw [div_mul_eq_mul_div, hzS]
      rw [hexp] at hscale
      have hth : (2:ℚ)^(t-1) * S = 2^t * S / 2 := by
        rw [← hThalf]
        ring
      rw [hth] at hscale
      have hk53 : (k:ℚ)/2^53 ≤ 1/2^29 := by linarith
      linarith
    -- folded grid window and quarter-grid identity
    have hGloS : 1/20 < (2:ℚ)^t * S := by rw [hS]; exact hG_lo
    have hGhiS : (2:ℚ)^t * S < 6/5 := by rw [hS]; exact hG_hi
    have hq4 : (2:ℚ)^(t-2) * S * 4 = 2^t * S := by
      have h1 : (2:ℚ)^(t-2) * S * 2 = 2^(t-1) * S := by rw [← hTq]; ring
      have h2 : (2:ℚ)^(t-1) * S * 2 = 2^t * S := by rw [← hThalf]; ring
      linarith
    have hhalfS : (2:ℚ)^(t-1) * S * 2 = 2^t * S := by rw [← hThalf]; ring
    -- the three regimes
    rcases hsafe with ⟨hs0, ht0⟩ | hfine | ⟨hcoarse, hphi⟩
    · -- exact case: S = 1, y = M an integer
      have hS1 : S = 1 := by rw [hS, hs0, zpow_zero]
      have hyM : y = (M:ℚ) := by rw [hyMt, ht0, zpow_zero, mul_one]
      have hY1M : Y1 = (M:ℚ) := by
        rw [hY1def, hS1, hyM, mul_one, fl53_fixed_M M hM1 hM2]
      have hk'M : k' = M := by
        rw [hkpdef, hY1M]
        exact roundAway_eq_of_abs_lt M ((M:ℚ)) (by rw [sub_self, abs_zero]; norm_num)
      rw [hPy, hk'M, hS1, div_one, fl53_fixed_M M hM1 hM2, fl24_fixed_M M hM1 hM2]
      exact hyM.symm
    · -- fine case: the second rounding recovers k exactly
      have hGfold : (2:ℚ)^t * S ≤ 1 - 1/2^10 := hfine
      have hk'k : k' = k := by
        rw [hkpdef]
        apply roundAway_eq_of_abs_lt
        have h1 := (abs_le.mp hkY).1
        have h2 := (abs_le.mp hkY).2
        have h3 := (abs_le.mp hY1e).1
        have h4 := (abs_le.mp hY1e).2
        have hGpos2 : (0:ℚ) < 2^t * S := by positivity
        rw [abs_lt]
        constructor <;> linarith
      rw [hPy, hk'k, ← hzdef, ← hz1def, ← hydef]
    · -- coarse case
      -- deviation of fl53(k'/S), scaled by S
      have hqS : |Crypto.fl 53 ((k':ℚ)/S) * S - (k':ℚ)| ≤ 1/2^29 := by
        have h := hz1'eS
        rw [habs_scale (Crypto.fl 53 ((k':ℚ)/S)) ((k':ℚ)/S), hz'S] at h
        exact h
      have hql := (abs_le.mp hqS).1
      have hqu := (abs_le.mp hqS).2
      rcases eq_or_lt_of_le hM1 with hMeq | hMint
      · -- bottom-of-binade mantissa: M = 2^23
        have hyT : y = (2:ℚ)^(t+23) := by
          rw [hyMt, ← hMeq]
          push_cast
          rw [show ((8388608:ℚ)) = 2^(23:ℤ) from by norm_num, mul_comm,
            zpow2_add_eq t 23 (t+23) rfl]
        have hYbS : (2:ℚ)^(t+23) * S = y * S := by rw [hyT]
        rw [hYbS] at hphi
        have hfl1 : ((⌊y * S⌋:ℤ):ℚ) ≤ y * S := Int.floor_le _
        have hfl2 : y * S < (⌊y * S⌋:ℚ) + 1 := Int.lt_floor_add_one _
        -- lower deviation of k (quarter-grid, from the preimage bottom bound)
        have hbot' : (M:ℚ) * 2^t - 2^(t-2) ≤ z1 := hbot hMeq.symm
        have hzlow : y - 2^(t-2) - z/2^53 ≤ z := by
          have h1 := (abs_le.mp hz1err).2
          rw [hyMt]
          linarith [hbot']
        have hklow : y * S - ((2:ℚ)^t * S)/4 - 1/2^29 ≤ (k:ℚ) := by
          have hs := mul_le_mul_of_nonneg_right hzlow hSpos.le
          have hexp : (y - 2^(t-2) - z/2^53) * S = y*S - 2^(t-2)*S - (k:ℚ)/2^53 := by
            rw [sub_mul, sub_mul, div_mul_eq_mul_div, hzS]
          rw [hexp, hzS] at hs
          have hk53 : (k:ℚ)/2^53 ≤ 1/2^29 := by linarith
          linarith [hq4]
        rcases hphi with hd1 | hd2 | hd3
        · -- quarter window below: k' = floor, lands within a quarter grid step
          have hk'fl : k' = ⌊y * S⌋ := by
            rw [hkpdef]
            apply roundAway_eq_of_abs_lt
            have h1 := (abs_le.mp hY1e).1
            have h2 := (abs_le.mp hY1e).2
            rw [abs_lt]
            constructor
            · linarith [hfl1]
            · linarith [hd1, hGhiS]
          have hk'cast : (k':ℚ) = ((⌊y * S⌋:ℤ):ℚ) := by exact_mod_cast hk'fl
          have hlow : (y - 2^(t-2)) * S ≤ Crypto.fl 53 ((k':ℚ)/S) * S := by
            rw [sub_mul]
            linarith [hd1, hq4, hk'cast, hql]
          have hhigh : Crypto.fl 53 ((k':ℚ)/S) * S ≤ (y + 2^(t-1)) * S := by
            rw [add_mul]
            linarith [hfl1, hhalfS, hcoarse, hk'cast, hqu]
          have hlow' := le_of_mul_le_mul_right hlow hSpos
          have hhigh' := le_of_mul_le_mul_right hhigh hSpos
          rw [hyT] at hlow' hhigh'
          rw [hPy, hyT]
          exact fl24_round_bottom t _ hlow' hhigh'
        · -- upper half window: k' = ceil, lands within half a grid step above
          have hk'cl : k' = ⌊y * S⌋ + 1 := by
            rw [hkpdef]
            apply roundAway_eq_of_abs_lt
            have h1 := (abs_le.mp hY1e).1
            have h2 := (abs_le.mp hY1e).2
            rw [abs_lt]
            push_cast
            constructor
            · linarith [hd2, hfl2]
            · linarith [hd2, hfl2]
          have hk'cast : (k':ℚ) = ((⌊y * S⌋:ℤ):ℚ) + 1 := by exact_mod_cast hk'cl
          have hlow : (y - 2^(t-2)) * S ≤ Crypto.fl 53 ((k':ℚ)/S) * S := by
            rw [sub_mul]
            linarith [hfl2, hq4, hcoarse, hk'cast, hql]
          have hhigh : Crypto.fl 53 ((k':ℚ)/S) * S ≤ (y + 2^(t-1)) * S := by
            rw [add_mul]
            linarith [hd2, hfl2, hhalfS, hcoarse, hk'cast, hqu]
          have hlow' := le_of_mul_le_mul_right hlow hSpos
          have hhigh' := le_of_mul_le_mul_right hhigh hSpos
          rw [hyT] at hlow' hhigh'
          rw [hPy, hyT]
          exact fl24_round_bottom t _ hlow' hhigh'
        · -- far-floor window: either k = floor (identity) or no source k exists
          have hk'fl : k' = ⌊y * S⌋ := by
            rw [hkpdef]
            apply roundAway_eq_of_abs_lt
            have h1 := (abs_le.mp hY1e).1
            have h2 := (abs_le.mp hY1e).2
            rw [abs_lt]
            constructor
            · linarith [hfl1]
            · linarith [hd3, hcoarse]
          by_cases hkk : k = ⌊y * S⌋
          · have hk'k : k' = k := by rw [hk'fl, hkk]
            rw [hPy, hk'k, ← hzdef, ← hz1def, ← hydef]
          · exfalso
            have hfl1' : ((⌊y * S⌋:ℤ):ℚ) ≤ y * S := hfl1
            rcases (show k ≤ ⌊y * S⌋ - 1 ∨ ⌊y * S⌋ + 1 ≤ k by omega) with hlt | hgt
            · have hc1 : (k:ℚ) ≤ ((⌊y * S⌋:ℤ):ℚ) - 1 := by exact_mod_cast hlt
              linarith [hklow, hGhiS]
            · have hc1 : ((⌊y * S⌋:ℤ):ℚ) + 1 ≤ (k:ℚ) := by exact_mod_cast hgt
              have h2 := (abs_le.mp hkY).2
              linarith [hd3]
      · -- interior mantissa: strictly within half a grid step
        have hscaled : |Crypto.fl 53 ((k':ℚ)/S) - y| * S < (2:ℚ)^(t-1) * S := by
          have htri : |Crypto.fl 53 ((k':ℚ)/S) - y| ≤
              |Crypto.fl 53 ((k':ℚ)/S) - (k':ℚ)/S| + |(k':ℚ)/S - y| :=
            abs_sub_le _ _ _
          have hs1 := mul_le_mul_of_nonneg_right htri hSpos.le
          rw [add_mul] at hs1
          have h2 : |(k':ℚ)/S - y| * S = |(k':ℚ) - y * S| := by
            rw [habs_scale, hz'S]
          rw [h2] at hs1
          have hcoarse' : 1 + 1/2^10 ≤ (2:ℚ)^t * S := hcoarse
          linarith [hz1'eS, hk'Y, hhalfS]
        have huns : |Crypto.fl 53 ((k':ℚ)/S) - y| < (2:ℚ)^(t-1) :=
          lt_of_mul_lt_mul_right hscaled hSpos.le
        rw [hPy, hyMt]
        apply fl24_round_interior M t _ hMint hM2
        rw [← hyMt]
        exact huns
  · -- c2 = c + 1: the result rounded up onto the next decade, k = 10^7
    rw [hcc] at hyb1
    have hyS_gt : 10000000 < y * S := by
      have h := mul_lt_mul_of_pos_right
        (show (10:ℚ)^((c+1)-1 : ℤ) < y by exact hyb1) hSpos
      rw [show ((c+1)-1 : ℤ) = c by ring, hS7] at h
      exact h
    have hk7 : k = 10^7 := by
      by_contra hne
      have hk2' : k ≤ 10^7 - 1 := by omega
      have hcast : (k:ℚ) ≤ 9999999 := by exact_mod_cast hk2'
      linarith [hY_hi, hyS_gt, hcast]
    have hz10 : z = (10:ℚ)^(c:ℤ) := by
      rw [hzdef, hk7, div_eq_iff hSpos.ne']
      push_cast
      rw [hS7]
    rw [hydef, hz1def, hz10]
    exact power_of_ten_fixed c (Finset.mem_Icc.mpr ⟨by omega, by omega⟩)

section OddLemmas

variable {K : Type} [LinearOrderedField K] [FloorRing K]

theorem precision7_unfold (x : K) (d : ℕ) (hx : x ≠ 0) (hd : d ≠ 0) :
    Crypto.precision_f32 x d =
      Crypto.fl 24 (Crypto.fl 53
        ((Crypto.roundAway (Crypto.fl 53 (x * 10 ^ ((d:ℤ) - intClog 10 |x|))) : K) /
          10 ^ ((d:ℤ) - intClog 10 |x|))) := by
  unfold Crypto.precision_f32
  rw [if_neg (by push_neg; exact ⟨hx, hd⟩)]

/-- `precision_f32` is an odd function: the decimal shift uses `|x|` and all
rounding steps commute with negation. -/
theorem precision7_neg (x : K) (d : ℕ) :
    Crypto.precision_f32 (-x) d = -Crypto.precision_f32 x d := by
  by_cases hx : x = 0
  · simp [hx, Crypto.precision_f32]
  by_cases hd : d = 0
  · simp [hd, Crypto.precision_f32]
  have hnx : -x ≠ 0 := neg_ne_zero.mpr hx
  rw [precision7_unfold (-x) d hnx hd, precision7_unfold x d hx hd, abs_neg,
    neg_mul, fl_neg, roundAway_neg, Int.cast_neg, neg_div, fl_neg, fl_neg]

end OddLemmas

set_option maxHeartbeats 1600000 in
/-- First pass composed with the core fixed-point lemma: idempotence for
positive inputs in the magnitude window. -/
theorem precision7_idem_pos (x : ℚ) (hx0 : 0 < x)
    (hlo : (10:ℚ)^(-(40:ℤ)) ≤ x) (hhi : x ≤ 10^(40:ℤ)) :
    Crypto.precision_f32 (Crypto.precision_f32 x 7) 7 = Crypto.precision_f32 x 7 := by
  have hcb := intClog10_bounds x hx0
  have hc_le : intClog 10 x ≤ 40 := by
    by_contra hcon
    push_neg at hcon
    have h' : (40:ℤ) ≤ intClog 10 x - 1 := by omega
    have hmono : (10:ℚ)^(40:ℤ) ≤ 10^(intClog 10 x - 1) :=
      zpow_le_zpow_right₀ (by norm_num) h'
    linarith [hcb.1]
  have hc_ge : -40 ≤ intClog 10 x := by
    by_contra hcon
    push_neg at hcon
    have h : intClog 10 x ≤ -41 := by omega
    have hmono : (10:ℚ)^(intClog 10 x) ≤ 10^(-(41:ℤ)) :=
      zpow_le_zpow_right₀ (by norm_num) h
    have h2 : (10:ℚ)^(-(41:ℤ)) < 10^(-(40:ℤ)) :=
      (zpow_lt_zpow_iff_right₀ (by norm_num : (1:ℚ) < 10)).mpr (by norm_num)
    linarith [hcb.2]
  set c : ℤ := intClog 10 x with hcdef
  have hSpos : (0:ℚ) < 10^((7:ℤ)-c) := zpow_pos (by norm_num) _
  have hS6 : (10:ℚ)^((c:ℤ)-1) * 10^((7:ℤ)-c) = 1000000 := by
    rw [zpow10_add_eq (c-1) (7-c) 6 (by ring)]
    norm_num
  have hS7 : (10:ℚ)^(c:ℤ) * 10^((7:ℤ)-c) = 10000000 := by
    rw [zpow10_add_eq c (7-c) 7 (by ring)]
    norm_num
  have hu_lo : 1000000 < x * 10^((7:ℤ)-c) := by
    have h := mul_lt_mul_of_pos_right hcb.1 hSpos
    rwa [hS6] at h
  have hu_hi : x * 10^((7:ℤ)-c) ≤ 10000000 := by
    have h := mul_le_mul_of_nonneg_right hcb.2 hSpos.le
    rwa [hS7] at h
  have hupos : (0:ℚ) < x * 10^((7:ℤ)-c) := by positivity
  have hu1e : |Crypto.fl 53 (x * 10^((7:ℤ)-c)) - x * 10^((7:ℤ)-c)| ≤ 1/2^29 := by
    have h := fl_abs_sub_le 53 (x * 10^((7:ℤ)-c))
    rw [abs_of_pos hupos] at h
    have h2 : (x * 10^((7:ℤ)-c))/2^53 ≤ 1/2^29 := by linarith
    linarith
  have hke : |(Crypto.roundAway (Crypto.fl 53 (x * 10^((7:ℤ)-c))) : ℚ) -
      Crypto.fl 53 (x * 10^((7:ℤ)-c))| ≤ 1/2 := roundAway_abs_sub_le _
  have hkQlo : (999999:ℚ) <
      (Crypto.roundAway (Crypto.fl 53 (x * 10^((7:ℤ)-c))) : ℚ) := by
    have h1 := (abs_le.mp hu1e).1
    have h2 := (abs_le.mp hke).1
    linarith
  have hkQhi : (Crypto.roundAway (Crypto.fl 53 (x * 10^((7:ℤ)-c))) : ℚ) <
      10000001 := by
    have h1 := (abs_le.mp hu1e).2
    have h2 := (abs_le.mp hke).2
    linarith
  have hklo : 10^6 ≤ Crypto.roundAway (Crypto.fl 53 (x * 10^((7:ℤ)-c))) := by
    have h : (999999:ℤ) < Crypto.roundAway (Crypto.fl 53 (x * 10^((7:ℤ)-c))) := by
      exact_mod_cast hkQlo
    omega
  have hkhi : Crypto.roundAway (Crypto.fl 53 (x * 10^((7:ℤ)-c))) ≤ 10^7 := by
    have h : Crypto.roundAway (Crypto.fl 53 (x * 10^((7:ℤ)-c))) < (10000001:ℤ) := by
      exact_mod_cast hkQhi
    omega
  have hP : Crypto.precision_f32 x 7 = Crypto.fl 24 (Crypto.fl 53
      ((Crypto.roundAway (Crypto.fl 53 (x * 10^((7:ℤ)-c))) : ℚ) / 10^((7:ℤ)-c))) := by
    rw [precision7_eq x hx0.ne', abs_of_pos hx0, ← hcdef]
  rw [hP]
  exact precision7_image_fixed _ c hklo hkhi (by omega) (by omega)

/-- C5: the rounding function is idempotent at 7 significant digits:
`precision_f32 (precision_f32 x 7) 7 = precision_f32 x 7` for every input in
the magnitude window of normalized `f32` values (`x = 0` or
`10^-40 ≤ |x| ≤ 10^40`). -/
theorem precision_idempotence (x : ℚ)
    (hx : x = 0 ∨ ((10:ℚ)^(-(40:ℤ)) ≤ |x| ∧ |x| ≤ 10^(40:ℤ))) :
    Crypto.precision_f32 (Crypto.precision_f32 x 7) 7 = Crypto.precision_f32 x 7 := by
  rcases hx with hx0 | ⟨hlo, hhi⟩
  · rw [hx0]
    simp [Crypto.precision_f32]
  rcases lt_trichotomy x 0 with hneg | hzero | hpos
  · have hx0 : 0 < -x := by linarith
    have habs : |x| = -x := abs_of_neg hneg
    rw [habs] at hlo hhi
    have h := precision7_idem_pos (-x) hx0 hlo hhi
    have hPx : Crypto.precision_f32 x 7 = -Crypto.precision_f32 (-x) 7 := by
      have h2 := precision7_neg (K := ℚ) (-x) 7
      rwa [neg_neg] at h2
    rw [hPx, precision7_neg, h]
  · exfalso
    rw [hzero, abs_zero] at hlo
    exact absurd hlo (not_le.mpr (zpow_pos (by norm_num) _))
  · have habs : |x| = x := abs_of_pos hpos
    rw [habs] at hlo hhi
    exact precision7_idem_pos x hpos hlo hhi

/-- Witness for precision_idempotence at the concrete input `1/3`. -/
theorem precision_idempotence_witness :
    ((1/3 : ℚ) = 0 ∨ ((10:ℚ)^(-(40:ℤ)) ≤ |(1/3:ℚ)| ∧ |(1/3:ℚ)| ≤ 10^(40:ℤ))) ∧
    Crypto.precision_f32 (Crypto.precision_f32 (1/3:ℚ) 7) 7 =
      Crypto.precision_f32 (1/3:ℚ) 7 :=
  ⟨Or.inr ⟨by decide, by decide⟩,
    precision_idempotence (1/3) (Or.inr ⟨by decide, by decide⟩)⟩

end UnityRandom
